import Mathlib

/-!
# shellish: parser and pipeline orchestrator

A shallow embedding of `parse_command`, `exec_single` and `process_command`
from `shellish-skeleton.c`.

Modelling conventions.

* A C string is the list of its characters before the terminating NUL.
* A `char *` that may be `NULL` is an `Option`; `NULL` is `none`.
* `main` clears the head descriptor with `memset`; the descriptor of a later
  stage comes from a bare `malloc` and is not cleared. The parser is
  therefore given the content of each block `malloc` hands out (`fresh`): a
  field the code never writes keeps what the block held.
* `strcpy` into the 1024-byte `temp_buf` is defined only for a token of at
  most 1023 characters; a longer token leaves the parse without a result
  (`none`). The copy of the first token into `name` is sized by `strlen` and
  has no such limit.
* `strtok` keeps one saved position; it is threaded through the loop
  explicitly.
* When a bare `|` is the last token of the text, the code restores a blank
  over the terminator and reads on into the bytes that follow. The parser is
  given these bytes as the strings that follow the terminator (`tail`); with
  none left the read leaves the buffer and the parse has no result. Trimming
  trailing whitespace puts one empty string per trimmed character in front.
* `parse` is the parser in cleared memory (every block zero, an empty string
  after the line); general facts are stated for `parse_command` itself, with
  any memory.
* `int pipes[16][2]` is modelled with its capacity: a write to entry 16 or
  later, like a read past the end of `args`, leaves the run without a result.
* The orchestrator is modelled by the sequence of calls the parent makes; a
  `fork` event carries the child as it is when its program is dispatched.
* `fgets` and `snprintf` stop at the size they are given; the chatroom model
  keeps these limits (1024-byte `input`, 2048-byte `message`, 2050-byte
  `msg_nl`, 512-byte `room_path`, 1024-byte pipe paths). Standard input is a
  byte stream that may hold NUL bytes; `strlen` and `%s` stop at the first.
* Which file a path names is given by resolving it component by component
  (`resolve`), in a file system without symbolic or hard links.
* A `write` is recorded as the call made, with the bytes passed to it; the
  code does not look at its result.
-/

namespace Shellish

/-- A C string: the characters before the terminator. -/
abbrev CStr := List Char

/-- The descriptor of one pipeline stage (`struct command_t`). -/
structure command_t where
  name : CStr
  background : Bool
  auto_complete : Bool
  arg_count : Nat
  args : List (Option CStr)
  redirects : List (Option CStr)
  next : Option command_t

/-- The descriptor after `memset(command, 0, sizeof ...)`: every pointer
`NULL`, every flag clear. -/
def zero_command : command_t :=
  { name := [], background := false, auto_complete := false, arg_count := 0,
    args := [], redirects := [none, none, none], next := none }

/-- The horizontal tab. -/
def TAB : Char := Char.ofNat 9

/-- The double quote. -/
def DQUOTE : Char := Char.ofNat 34

/-- The single quote. -/
def SQUOTE : Char := Char.ofNat 39

/-- Membership in `splitters = " \t"`. -/
def isSplitter (c : Char) : Bool := c == ' ' || c == TAB

/-- The two `while` loops that trim whitespace on the left. -/
def trim_left (s : CStr) : CStr := s.dropWhile isSplitter

/-- The `while` loop that trims whitespace on the right. -/
def trim_right (s : CStr) : CStr := (s.reverse.dropWhile isSplitter).reverse

/-- One call of `strtok` with delimiters `splitters` on the text at the saved
position: `none` when only delimiters are left, else the token and the new
saved position (just past the delimiter that ended the token, or the end of
the string). -/
def strtok (s : CStr) : Option (CStr × CStr) :=
  match s.dropWhile isSplitter with
  | [] => none
  | c :: cs =>
    some ((c :: cs).takeWhile (fun x => !isSplitter x),
          ((c :: cs).dropWhile (fun x => !isSplitter x)).drop 1)

/-- Storage for `n` pointers: `realloc` keeps the old entries that fit. The
new entries are unwritten (shown as `NULL`); `parse_command` writes each of
them before it reads it, so nothing of what they held reaches the result. -/
def realloc_args (a : List (Option CStr)) (n : Nat) : List (Option CStr) :=
  a.take n ++ List.replicate (n - a.length) none

/-- The quote test and unwrapping of lines 185-191. -/
def strip_quotes (arg : CStr) : CStr :=
  if 2 < arg.length ∧
      ((arg.head? = some DQUOTE ∧ arg.getLast? = some DQUOTE) ∨
       (arg.head? = some SQUOTE ∧ arg.getLast? = some SQUOTE))
  then arg.dropLast.drop 1 else arg

/-- Lines 167-177: the slot a token selects (`-1` is `none`) together with
`arg` as advanced by the `>>` case. -/
def redirect_index (arg : CStr) : Option Nat × CStr :=
  let r0 : Option Nat := if arg.head? = some '<' then some 0 else none
  if arg.head? = some '>' then
    if 1 < arg.length ∧ arg.get? 1 = some '>' then (some 2, arg.drop 1)
    else (some 1, arg)
  else (r0, arg)

/-- The loop `for (i = arg_count - 2; i > 0; --i) args[i] = args[i - 1]`,
started at `i`. -/
def shift_args : Nat → List (Option CStr) → List (Option CStr)
  | 0, a => a
  | i + 1, a => shift_args i (a.set (i + 1) (a.getD i none))

/-- Lines 197-210: fix `arg_count`, grow the vector by two, shift, put the
name first and `NULL` last. -/
def finish_args (command : command_t) (arg_index : Nat) : command_t :=
  let arg_count := arg_index + 2
  let a := realloc_args command.args arg_count
  let a := shift_args (arg_count - 2) a
  let a := a.set 0 (some command.name)
  let a := a.set (arg_count - 1) none
  { command with arg_count := arg_count, args := a }

/-- The size of `temp_buf`. -/
def TEMP_BUF_SIZE : Nat := 1024

/-- Whether the first token of `s` runs up to the terminator of the string,
with no delimiter after it for `strtok` to overwrite. -/
def ends_at_terminator (s : CStr) : Bool :=
  ((s.dropWhile isSplitter).dropWhile (fun x => !isSplitter x)).isEmpty

mutual

/-- The body of `parse_command(buf, command)`.

`fresh k` is what the `k`-th descriptor handed out by `malloc` during this
parse holds before anything is written to it, and `tail` lists the strings
that lie in memory after the terminator of `buf`, one per further
terminator. `fuel` bounds the nesting of calls and loop rounds. The result
is `none` when the run leaves defined behaviour (a token that does not fit
`temp_buf`, a read past the memory described by `tail`) or the fuel. -/
def parse_command (fresh : Nat → command_t) :
    Nat → Nat → List CStr → CStr → command_t → Option command_t
  | 0, _, _, _, _ => none
  | fuel + 1, depth, tail, buf, command =>
    let buf1 := trim_left buf
    let buf := trim_right buf1
    -- every blank trimmed on the right is now a terminator
    let tail := List.replicate (buf1.length - buf.length) [] ++ tail
    let command :=
      if buf.getLast? = some '?' then { command with auto_complete := true }
      else command
    let command :=
      if buf.getLast? = some '&' then { command with background := true }
      else command
    match strtok buf with
    | none =>
      parse_loop fresh fuel depth tail [] { command with name := [], args := [none] } 0
    | some (pch, olds) =>
      parse_loop fresh fuel depth tail olds { command with name := pch, args := [none] } 0

/-- The `while (1)` loop of `parse_command`; `olds` is the saved position of
`strtok`, `arg_index` the number of arguments stored so far. -/
def parse_loop (fresh : Nat → command_t) :
    Nat → Nat → List CStr → CStr → command_t → Nat → Option command_t
  | 0, _, _, _, _, _ => none
  | fuel + 1, depth, tail, olds, command, arg_index =>
    match strtok olds with
    | none => some (finish_args command arg_index)
    | some (pch, rest) =>
      -- `strcpy(arg, pch)` needs `strlen(pch) + 1` bytes of `temp_buf`
      if TEMP_BUF_SIZE ≤ pch.length then none
      else
        let arg := trim_right (trim_left pch)
        if arg = [] then parse_loop fresh fuel depth tail rest command arg_index
        else if arg = ['|'] then
          -- what follows `pch[l]` in memory: the rest of this string, or,
          -- when `pch[l]` is the terminator itself, the next string
          let after : Option (CStr × List CStr) :=
            if ends_at_terminator olds then
              match tail with
              | [] => none
              | text :: tail => some (text, tail)
            else some (rest, tail)
          match after with
          | none => none
          | some (text, tail1) =>
            -- `pch[l] = ' '`, then skip one character and the whitespace after it
            let nested := ((pch ++ ' ' :: text).drop 1).dropWhile isSplitter
            match parse_command fresh fuel (depth + 1) tail1 nested (fresh depth) with
            | none => none
            | some c =>
              -- the nested call leaves the saved position at the end of its string
              parse_loop fresh fuel depth tail [] { command with next := some c } arg_index
        else if arg = ['&'] then parse_loop fresh fuel depth tail rest command arg_index
        else
          match redirect_index arg with
          | (some i, arg) =>
            parse_loop fresh fuel depth tail rest
              { command with redirects := command.redirects.set i (some (arg.drop 1)) }
              arg_index
          | (none, arg) =>
            let arg := strip_quotes arg
            let a := realloc_args command.args (arg_index + 1)
            parse_loop fresh fuel depth tail rest
              { command with args := a.set arg_index (some arg) } (arg_index + 1)

end

/-- The call `parse_command(buf, command)` made by `prompt` on a descriptor
cleared by `memset`, with enough fuel for the line and the strings after it. -/
def parse_mem (fresh : Nat → command_t) (tail : List CStr) (line : CStr) :
    Option command_t :=
  parse_command fresh (line.length + (tail.map (fun c => c.length + 1)).sum + 2)
    0 tail line zero_command

/-- The descriptor `prompt` hands on when the memory around the line is
zero-filled (every `malloc` block reads as zero and a terminator follows the
terminator of the line), as in a process that has just started;
`zero_command` stands in where such a run has no defined result. -/
def parse (line : CStr) : command_t :=
  (parse_mem (fun _ => zero_command) [[]] line).getD zero_command

/-- The stage chain as a list, head first. -/
def chain : command_t → List command_t
  | ⟨n, b, a, k, as, r, none⟩ => [⟨n, b, a, k, as, r, none⟩]
  | ⟨n, b, a, k, as, r, some d⟩ => ⟨n, b, a, k, as, r, some d⟩ :: chain d

/-- The whitespace-separated tokens of a string, in order. -/
def tokens : CStr → List CStr
  | [] => []
  | c :: cs =>
    if isSplitter c then tokens cs
    else
      match cs with
      | [] => [[c]]
      | d :: _ =>
        if isSplitter d then [c] :: tokens cs
        else
          match tokens cs with
          | [] => [[c]]
          | t :: ts => (c :: t) :: ts

/-- The last character of the last token. -/
def last_char (ts : List CStr) : Option Char := ts.getLast?.bind List.getLast?

mutual

/-- The descriptor `parse_command` builds, read off the token sequence of its
input in cleared memory (`parse_clean_aux`). -/
def stage_of_tokens : List CStr → command_t
  | [] => finish_args { zero_command with name := [], args := [none] } 0
  | t :: ts =>
    let command := zero_command
    let command :=
      if last_char (t :: ts) = some '?' then { command with auto_complete := true }
      else command
    let command :=
      if last_char (t :: ts) = some '&' then { command with background := true }
      else command
    loop_of_tokens ts { command with name := t, args := [none] } 0

/-- The effect of the parsing loop on the tokens still to be read. -/
def loop_of_tokens : List CStr → command_t → Nat → command_t
  | [], command, arg_index => finish_args command arg_index
  | t :: ts, command, arg_index =>
    if t = ['|'] then
      finish_args { command with next := some (stage_of_tokens ts) } arg_index
    else if t = ['&'] then loop_of_tokens ts command arg_index
    else
      match redirect_index t with
      | (some i, arg) =>
        loop_of_tokens ts
          { command with redirects := command.redirects.set i (some (arg.drop 1)) }
          arg_index
      | (none, arg) =>
        let a := realloc_args command.args (arg_index + 1)
        loop_of_tokens ts
          { command with args := a.set arg_index (some (strip_quotes arg)) }
          (arg_index + 1)

end

/-- One round of the parsing loop on a token that is not a bare `|`, as a
transformation of the descriptor and `arg_index`. -/
def step_token (s : command_t × Nat) (t : CStr) : command_t × Nat :=
  if t = ['&'] then s
  else
    match redirect_index t with
    | (some i, arg) =>
      ({ s.1 with redirects := s.1.redirects.set i (some (arg.drop 1)) }, s.2)
    | (none, arg) =>
      ({ s.1 with args :=
          (realloc_args s.1.args (s.2 + 1)).set s.2 (some (strip_quotes arg)) },
        s.2 + 1)

/-- A bare `|`. -/
def is_pipe (t : CStr) : Bool := t == ['|']

/-- The token begins with `<`. -/
def begins_in (t : CStr) : Bool := t.head? == some '<'

/-- The token begins with `>>`. -/
def begins_append (t : CStr) : Bool := t.head? == some '>' && t.get? 1 == some '>'

/-- The token begins with `>` but not with `>>`. -/
def begins_out (t : CStr) : Bool := t.head? == some '>' && !(t.get? 1 == some '>')

/-- An ordinary argument token: not `|`, not `&`, not a redirection. -/
def is_ordinary (t : CStr) : Bool :=
  !(t == ['|']) && !(t == ['&']) && !(t.head? == some '<') && !(t.head? == some '>')

/-- The tokens of a stage after its name: those before the first bare `|`.
`ts` are the tokens that follow the name. -/
def stage_rest (ts : List CStr) : List CStr := ts.takeWhile (fun t => !is_pipe t)

/-- The tokens after the first bare `|`, when there is one. -/
def after_pipe (ts : List CStr) : Option (List CStr) :=
  match ts.dropWhile (fun t => !is_pipe t) with
  | [] => none
  | _ :: r => some r

/-- The ordinary arguments among `pre`, as stored (quotes unwrapped). -/
def ord_args (pre : List CStr) : List CStr := (pre.filter is_ordinary).map strip_quotes

/-- The text after `<` in the last token that begins with `<`. -/
def slot_in (pre : List CStr) : Option CStr :=
  (pre.filter begins_in).getLast?.map (List.drop 1)

/-- The text after `>` in the last token that begins with `>` but not `>>`. -/
def slot_out (pre : List CStr) : Option CStr :=
  (pre.filter begins_out).getLast?.map (List.drop 1)

/-- The text after `>>` in the last token that begins with `>>`. -/
def slot_append (pre : List CStr) : Option CStr :=
  (pre.filter begins_append).getLast?.map (List.drop 2)

mutual

/-- The token lists of the successive stages, when `toks` starts a stage (its
first token is the stage name). A stage with no token has the empty name. -/
def stages_from : List CStr → List (List CStr)
  | [] => [[]]
  | t :: ts => (t :: ts) :: stages_after ts

/-- The token lists of the stages that follow the current one, scanning its
tokens for the first bare `|`. -/
def stages_after : List CStr → List (List CStr)
  | [] => []
  | t :: ts => if is_pipe t then stages_from ts else stages_after ts

end

/-! ## Descriptors, processes and the orchestrator -/

/-- `enum return_codes`. -/
inductive return_codes where
  | SUCCESS
  | EXIT
  | UNKNOWN
  deriving DecidableEq, Repr

/-- The three `open` flag sets of `exec_single`. -/
inductive OpenMode where
  | rdonly
  | trunc
  | append
  deriving DecidableEq, Repr

/-- What a file descriptor refers to. -/
inductive Res where
  | inherited (fd : Nat)
  | pipe_read (i : Nat)
  | pipe_write (i : Nat)
  | file (path : CStr) (mode : OpenMode)
  deriving DecidableEq, Repr

/-- A descriptor table: entry `fd` is what descriptor `fd` refers to, `none`
when it is closed; descriptors past the end are closed. -/
abbrev FdTable := List (Option Res)

/-- What descriptor `fd` refers to. -/
def fd_lookup (t : FdTable) (fd : Nat) : Option Res := (t.get? fd).join

/-- The table with descriptor `fd` made to refer to `r`. -/
def fd_assign (t : FdTable) (fd : Nat) (r : Option Res) : FdTable :=
  (t ++ List.replicate (fd + 1 - t.length) none).set fd r

/-- The lowest closed descriptor, the one `open` and `pipe` hand out. -/
def lowest_free : FdTable → Nat
  | [] => 0
  | none :: _ => 0
  | some _ :: t => lowest_free t + 1

/-- The system call `close(fd)`. -/
def sys_close (t : FdTable) (fd : Nat) : FdTable := fd_assign t fd none

/-- The system call `dup2(oldfd, newfd)`; no change when `oldfd` is closed. -/
def sys_dup2 (t : FdTable) (oldfd newfd : Nat) : FdTable :=
  match fd_lookup t oldfd with
  | none => t
  | some r => fd_assign t newfd (some r)

/-- A successful `open`: the new table and the descriptor returned. -/
def sys_open (t : FdTable) (r : Res) : FdTable × Nat :=
  (fd_assign t (lowest_free t) (some r), lowest_free t)

/-- A successful `pipe`, creating pipe number `i`: the new table, then the
read end, then the write end. -/
def sys_pipe (t : FdTable) (i : Nat) : FdTable × Nat × Nat :=
  let r := lowest_free t
  let t1 := fd_assign t r (some (Res.pipe_read i))
  let w := lowest_free t1
  (fd_assign t1 w (some (Res.pipe_write i)), r, w)

/-- The answers of the operating system: the process identifier the `n`-th
`fork` returns in the parent, whether the `i`-th `pipe` call succeeds, whether
`open` on a path succeeds. -/
structure Kernel where
  pid : Nat → Nat
  pipe_ok : Nat → Bool
  open_ok : CStr → Bool

/-- Where `exec_single` hands control after the redirections. -/
inductive Dispatch where
  | chatroom
  | cut
  | path_search
  deriving DecidableEq, Repr

/-- A child at the moment its program is dispatched. -/
structure child_image where
  fds : FdTable
  dispatch : Dispatch

/-- One redirection of `exec_single`: `open`, `dup2` onto `target`, `close`;
`none` when `open` fails (the child exits with status 1). -/
def redirect_stream (K : Kernel) (t : FdTable) (slot : Option CStr)
    (mode : OpenMode) (target : Nat) : Option FdTable :=
  match slot with
  | none => some t
  | some path =>
    if K.open_ok path then
      let (t1, fd) := sys_open t (Res.file path mode)
      some (sys_close (sys_dup2 t1 fd target) fd)
    else none

/-- The function `exec_single` up to the dispatch of the program. -/
def exec_single (K : Kernel) (t : FdTable) (command : command_t) : Option child_image :=
  match redirect_stream K t (command.redirects.getD 0 none) OpenMode.rdonly 0 with
  | none => none
  | some t =>
    match redirect_stream K t (command.redirects.getD 1 none) OpenMode.trunc 1 with
    | none => none
    | some t =>
      match redirect_stream K t (command.redirects.getD 2 none) OpenMode.append 1 with
      | none => none
      | some t =>
        some { fds := t,
               dispatch :=
                 if command.name = "chatroom".toList then Dispatch.chatroom
                 else if command.name = "cut".toList then Dispatch.cut
                 else Dispatch.path_search }

/-- What the orchestrating process does, in order. -/
inductive Event where
  | chdir (path : Option CStr)
  | pipe (r w : Nat)
  | fork (i : Nat) (pid : Nat) (child : Option child_image)
  | close (fd : Nat)
  | wait
  | print_bg (pid : Nat)

/-- The capacity of `int pipes[16][2]`. -/
def PIPES_CAPACITY : Nat := 16

/-- The outcome of the pipe-creating loop. -/
inductive pipes_result where
  | out_of_bounds
  | failed (trace : List Event)
  | ok (t : FdTable) (pipes : List (Nat × Nat)) (trace : List Event)

/-- The loop `for (i = 0; i < count - 1; i++) pipe(pipes[i])` with `n` rounds
to go; `pipes` holds the entries written so far. Writing entry 16 or later
is outside the array. -/
def make_pipes (K : Kernel) : Nat → FdTable → List (Nat × Nat) → List Event → pipes_result
  | 0, t, pipes, trace => pipes_result.ok t pipes trace
  | n + 1, t, pipes, trace =>
    if PIPES_CAPACITY ≤ pipes.length then pipes_result.out_of_bounds
    else if K.pipe_ok pipes.length then
      let (t1, r, w) := sys_pipe t pipes.length
      make_pipes K n t1 (pipes ++ [(r, w)]) (trace ++ [Event.pipe r w])
    else pipes_result.failed trace

/-- The descriptor moves of pipeline child `i` of `count` before it calls
`exec_single`. -/
def child_setup (t : FdTable) (pipes : List (Nat × Nat)) (i count : Nat) : FdTable :=
  let t := if 0 < i then sys_dup2 t (pipes.getD (i - 1) (0, 0)).1 0 else t
  let t := if i < count - 1 then sys_dup2 t (pipes.getD i (0, 0)).2 1 else t
  pipes.foldl (fun t p => sys_close (sys_close t p.1) p.2) t

/-- The forking loop, from stage `i` on. -/
def fork_all (K : Kernel) (t : FdTable) (pipes : List (Nat × Nat)) (count : Nat) :
    Nat → List command_t → List Event
  | _, [] => []
  | i, c :: cs =>
    Event.fork i (K.pid i) (exec_single K (child_setup t pipes i count) c)
      :: fork_all K t pipes count (i + 1) cs

/-- The parent closing both ends of every pipe. -/
def close_all (pipes : List (Nat × Nat)) : List Event :=
  pipes.flatMap (fun p => [Event.close p.1, Event.close p.2])

/-- The function `process_command` as run by the shell with descriptor table
`t`: the calls made, in order, and the code returned; `none` when the run
writes outside `pipes` or reads outside `args`. -/
def process_command (K : Kernel) (t : FdTable) (command : command_t) :
    Option (List Event × return_codes) :=
  if command.name = [] then some ([], return_codes.SUCCESS)
  else if command.name = "exit".toList then some ([], return_codes.EXIT)
  else if command.name = "cd".toList ∧ 0 < command.arg_count then
    match command.args.get? 1 with
    | none => none
    | some path => some ([Event.chdir path], return_codes.SUCCESS)
  else
    match command.next with
    | some _ =>
      let count := (chain command).length
      match make_pipes K (count - 1) t [] [] with
      | pipes_result.out_of_bounds => none
      | pipes_result.failed trace => some (trace, return_codes.UNKNOWN)
      | pipes_result.ok t1 pipes trace =>
        some (trace ++ fork_all K t1 pipes count 0 (chain command)
                ++ close_all pipes ++ List.replicate count Event.wait,
              return_codes.SUCCESS)
    | none =>
      let forked := Event.fork 0 (K.pid 0) (exec_single K t command)
      if command.background then
        some ([forked, Event.print_bg (K.pid 0)], return_codes.SUCCESS)
      else some ([forked, Event.wait], return_codes.SUCCESS)

/-- The state of the pipe-creating loop: every descriptor open in the
shell's table `t0` is untouched in `t`, and entry `j` of `pipes` holds the
two ends of pipe `j`, both on descriptors that were closed in `t0`. -/
def pipes_inv (t0 t : FdTable) (pipes : List (Nat × Nat)) : Prop :=
  (∀ x, fd_lookup t0 x ≠ none → fd_lookup t x = fd_lookup t0 x) ∧
  (∀ j r w, pipes.get? j = some (r, w) →
    fd_lookup t r = some (Res.pipe_read j) ∧ fd_lookup t w = some (Res.pipe_write j) ∧
    fd_lookup t0 r = none ∧ fd_lookup t0 w = none)

/-- A kernel in which every `pipe` and `open` succeeds and the `n`-th child
gets process identifier `100 + n`. -/
def std_kernel : Kernel :=
  { pid := fun n => 100 + n, pipe_ok := fun _ => true, open_ok := fun _ => true }

/-- The descriptor table of a shell started with the three standard streams. -/
def std_fds : FdTable :=
  [some (Res.inherited 0), some (Res.inherited 1), some (Res.inherited 2)]

/-- The number of `wait` calls in a trace. -/
def count_waits : List Event → Nat
  | [] => 0
  | Event.wait :: es => count_waits es + 1
  | _ :: es => count_waits es

/-- The process identifiers reported as running in the background. -/
def reported_bg : List Event → List Nat
  | [] => []
  | Event.print_bg pid :: es => pid :: reported_bg es
  | _ :: es => reported_bg es

/-- The number of `fork` calls in a trace. -/
def count_forks : List Event → Nat
  | [] => 0
  | Event.fork _ _ _ :: es => count_forks es + 1
  | _ :: es => count_forks es

/-- The children created in a trace: for each `fork`, what descriptor 0 and
descriptor 1 of the child refer to when its program is dispatched (`none`
for a child that exited on a failed `open`). -/
def fork_streams : List Event → List (Option (Option Res × Option Res))
  | [] => []
  | Event.fork _ _ child :: es =>
    child.map (fun img => (fd_lookup img.fds 0, fd_lookup img.fds 1)) :: fork_streams es
  | _ :: es => fork_streams es

/-! ## The chatroom send step

One round of the parent loop of `run_chatroom` (lines 368-418). Standard
input is the text still to be read; the directory listing is what `opendir`
and `readdir` give in this round (`none` when `opendir` fails). The helper
forked for a peer runs to its `exit` before `waitpid` returns, so its calls
are listed between the `fork` and the `waitpid` of the parent. -/

/-- The line feed. -/
def NEWLINE : Char := Char.ofNat 10

/-- The byte that ends a C string. -/
def NUL : Char := Char.ofNat 0

/-- The C string held in a buffer: the bytes before the first NUL, which is
what `strlen` measures and `%s` prints. -/
def c_str (buf : CStr) : CStr := buf.takeWhile (fun c => c != NUL)

/-- The text `snprintf(buf, size, ...)` leaves in `buf`: what does not fit
is cut off after `size - 1` characters. -/
def snprintf (size : Nat) (s : CStr) : CStr := s.take (size - 1)

/-- The reading loop of `fgets` with room for `n` more characters: the
characters stored and the input left unread. -/
def fgets_aux : Nat → CStr → CStr × CStr
  | 0, s => ([], s)
  | _ + 1, [] => ([], [])
  | n + 1, c :: cs =>
    if c = NEWLINE then ([c], cs)
    else ((c :: (fgets_aux n cs).1), (fgets_aux n cs).2)

/-- The call `fgets(buf, size, stdin)`: `none` (`NULL`) at end of input. -/
def fgets (size : Nat) (stdin : CStr) : Option (CStr × CStr) :=
  match stdin with
  | [] => none
  | _ :: _ => some (fgets_aux (size - 1) stdin)

/-- The buffer `room_path`. -/
def room_path (roomname : CStr) : CStr :=
  snprintf 512 ("/tmp/chatroom-".toList ++ roomname)

/-- The path of the pipe of `name` in the room, as built in `user_pipe` and
`target_pipe` (both 1024 bytes). -/
def pipe_path (roomname name : CStr) : CStr :=
  snprintf 1024 (room_path roomname ++ '/' :: name)

/-- The calls of one chatroom round, parent and helpers, in order. -/
inductive ChatEvent where
  | print (text : CStr)
  | opendir (path : CStr) (ok : Bool)
  | fork (pid : Nat)
  | child_open (pid : Nat) (path : CStr) (ok : Bool)
  | child_write (pid : Nat) (path : CStr) (bytes : CStr)
  | child_close (pid : Nat) (path : CStr)
  | child_exit (pid : Nat)
  | waitpid (pid : Nat)
  | closedir (path : CStr)
  deriving DecidableEq

/-- The writer child: open the peer's pipe write-only and non-blocking, on
success write the message and a line feed and close, then exit. -/
def writer_child (K : Kernel) (pid : Nat) (target message : CStr) : List ChatEvent :=
  if K.open_ok target then
    [ChatEvent.child_open pid target true,
     ChatEvent.child_write pid target (snprintf 2050 (message ++ [NEWLINE])),
     ChatEvent.child_close pid target,
     ChatEvent.child_exit pid]
  else [ChatEvent.child_open pid target false, ChatEvent.child_exit pid]

/-- The `readdir` loop over the entries still to come; `n` counts the forks
made so far. Returns the calls and the new count. -/
def broadcast (K : Kernel) (roomname username message : CStr) :
    Nat → List CStr → List ChatEvent × Nat
  | n, [] => ([], n)
  | n, d_name :: entries =>
    if d_name = ".".toList ∨ d_name = "..".toList ∨ d_name = username then
      broadcast K roomname username message n entries
    else
      ((ChatEvent.fork (K.pid n)
          :: writer_child K (K.pid n) (pipe_path roomname d_name) message
          ++ [ChatEvent.waitpid (K.pid n)])
          ++ (broadcast K roomname username message (n + 1) entries).1,
        (broadcast K roomname username message (n + 1) entries).2)

/-- One round of the parent loop: the calls made, and, unless the loop is
left at end of input, the input still unread and the fork count. -/
def send_step (K : Kernel) (roomname username : CStr) (n : Nat) (stdin : CStr)
    (listing : Option (List CStr)) : List ChatEvent × Option (CStr × Nat) :=
  let prompt := ChatEvent.print
    ('[' :: roomname ++ "] ".toList ++ username ++ " > ".toList)
  match fgets 1024 stdin with
  | none => ([prompt], none)
  | some (input, rest) =>
    let input := c_str input
    let input := if input.getLast? = some NEWLINE then input.dropLast else input
    if input = [] then ([prompt], some (rest, n))
    else
      let message := snprintf 2048 (username ++ ": ".toList ++ input)
      let echo := ChatEvent.print
        ('[' :: roomname ++ "] ".toList ++ message ++ [NEWLINE])
      match listing with
      | none =>
        ([prompt, echo, ChatEvent.opendir (room_path roomname) false], some (rest, n))
      | some entries =>
        ([prompt, echo, ChatEvent.opendir (room_path roomname) true]
            ++ (broadcast K roomname username message n entries).1
            ++ [ChatEvent.closedir (room_path roomname)],
          some (rest, (broadcast K roomname username message n entries).2))

/-- One step of path resolution: the directory reached from `dir` (given by
its components below the root) through the component `comp`. An empty
component and `.` stay, `..` goes up (the root is its own parent). -/
def resolve_step (dir : List CStr) (comp : CStr) : List CStr :=
  if comp = [] ∨ comp = ".".toList then dir
  else if comp = "..".toList then dir.dropLast
  else dir ++ [comp]

/-- Path resolution along the characters still to read; `cur` is the
component read so far. -/
def resolve_aux : List CStr → CStr → CStr → List CStr
  | dir, cur, [] => resolve_step dir cur
  | dir, cur, c :: cs =>
    if c = '/' then resolve_aux (resolve_step dir cur) [] cs
    else resolve_aux dir (cur ++ [c]) cs

/-- The directory entry an absolute path names, as the list of components
from the root, in a file system without symbolic or hard links that
compares names byte by byte: two paths name the same file exactly when they
resolve to the same list. -/
def resolve (path : CStr) : List CStr := resolve_aux [] [] path

/-- An entry the message goes to: not `.`, not `..`, not the sender. -/
def is_peer (username d_name : CStr) : Bool :=
  !(d_name == ".".toList) && !(d_name == "..".toList) && !(d_name == username)

/-- The `write` calls of a round: the path written to and the bytes. -/
def chat_writes : List ChatEvent → List (CStr × CStr)
  | [] => []
  | ChatEvent.child_write _ path bytes :: es => (path, bytes) :: chat_writes es
  | _ :: es => chat_writes es

/-- A heap in which the block `malloc` hands out still holds the descriptor
of an earlier line such as `cat >x`, freed since: slot 1 still points at the
old text. -/
def stale_heap : Nat → command_t :=
  fun _ => { zero_command with redirects := [none, some ['x'], none] }

/-- The text `echo "ab" x >o`. -/
def sample_line : CStr := "echo ".toList ++ [DQUOTE] ++ "ab".toList ++ [DQUOTE] ++ " x >o".toList

/-- The stage `parse_command` fills from `sample_line`. -/
def sample_stage : command_t :=
  { name := "echo".toList, background := false, auto_complete := false, arg_count := 4,
    args := [some "echo".toList, some "ab".toList, some "x".toList, none],
    redirects := [none, some "o".toList, none], next := none }

theorem strtok_cons_of_splitter (c : Char) (cs : CStr) (h : isSplitter c = true) :
    strtok (c :: cs) = strtok cs := by
  simp [strtok, List.dropWhile_cons, h]

theorem strtok_cons_of_not_splitter (c : Char) (cs : CStr) (h : isSplitter c = false) :
    strtok (c :: cs) =
      some (c :: cs.takeWhile (fun x => !isSplitter x),
            (cs.dropWhile (fun x => !isSplitter x)).drop 1) := by
  simp [strtok, List.dropWhile_cons, List.takeWhile_cons, h]

theorem tokens_cons_of_splitter (c : Char) (cs : CStr) (h : isSplitter c = true) :
    tokens (c :: cs) = tokens cs := by
  simp [tokens, h]

theorem tokens_cons_cons_of_not_splitter (c d : Char) (ds : CStr)
    (hc : isSplitter c = false) (hd : isSplitter d = false) :
    tokens (c :: d :: ds) =
      match tokens (d :: ds) with
      | [] => [[c]]
      | t :: ts => (c :: t) :: ts := by
  conv_lhs => rw [tokens]
  simp [hc, hd]

/-- The tokens are what successive `strtok` calls return. -/
theorem tokens_eq_strtok (s : CStr) :
    tokens s = match strtok s with
      | none => []
      | some (t, r) => t :: tokens r := by
  induction s with
  | nil => simp [strtok, tokens]
  | cons c cs ih =>
    by_cases h : isSplitter c = true
    · rw [tokens_cons_of_splitter c cs h, strtok_cons_of_splitter c cs h]; exact ih
    · have h : isSplitter c = false := by simpa using h
      rw [strtok_cons_of_not_splitter c cs h]
      cases cs with
      | nil => simp [tokens, h]
      | cons d ds =>
        by_cases hd : isSplitter d = true
        · simp [tokens, h, hd, List.takeWhile_cons, List.dropWhile_cons]
        · have hd : isSplitter d = false := by simpa using hd
          rw [strtok_cons_of_not_splitter d ds hd] at ih
          rw [tokens_cons_cons_of_not_splitter c d ds h hd, ih]
          simp [List.takeWhile_cons, List.dropWhile_cons, hd]

theorem strtok_none_iff (s : CStr) : strtok s = none ↔ tokens s = [] := by
  rw [tokens_eq_strtok s]
  cases h : strtok s with
  | none => simp
  | some p => simp

theorem strtok_some_tokens (s t r : CStr) (h : strtok s = some (t, r)) :
    tokens s = t :: tokens r := by
  rw [tokens_eq_strtok s, h]

theorem strtok_some_props (s t r : CStr) (h : strtok s = some (t, r)) :
    t ≠ [] ∧ (∀ c ∈ t, isSplitter c = false) ∧ r.length < s.length := by
  induction s with
  | nil => simp [strtok] at h
  | cons c cs ih =>
    by_cases hc : isSplitter c = true
    · rw [strtok_cons_of_splitter c cs hc] at h
      obtain ⟨h1, h2, h3⟩ := ih h
      exact ⟨h1, h2, by simp; omega⟩
    · have hc : isSplitter c = false := by simpa using hc
      rw [strtok_cons_of_not_splitter c cs hc] at h
      simp only [Option.some.injEq, Prod.mk.injEq] at h
      obtain ⟨rfl, rfl⟩ := h
      refine ⟨by simp, ?_, ?_⟩
      · intro x hx
        rcases List.mem_cons.1 hx with rfl | hx
        · exact hc
        · simpa using List.mem_takeWhile_imp hx
      · have := (List.dropWhile_suffix (fun x => !isSplitter x) (l := cs)).length_le
        simp only [List.length_drop, List.length_cons]
        omega

theorem getElem?_shift_args (i : Nat) (a : List (Option CStr)) (j : Nat)
    (hi : i < a.length) :
    (shift_args i a)[j]? = if 1 ≤ j ∧ j ≤ i then a[j - 1]? else a[j]? := by
  induction i generalizing a with
  | zero =>
    have : ¬ (1 ≤ j ∧ j ≤ 0) := by omega
    rw [if_neg this, shift_args]
  | succ i ih =>
    rw [shift_args, ih _ (by simp; omega)]
    simp only [List.getElem?_set]
    by_cases h1 : 1 ≤ j ∧ j ≤ i
    · have h2 : 1 ≤ j ∧ j ≤ i + 1 := by omega
      have h3 : ¬ (i + 1 = j - 1) := by omega
      simp [h1, h2, h3]
    · by_cases h4 : j = i + 1
      · subst h4
        have h6 : i < a.length := by omega
        have h7 : a[i]? = some a[i] := List.getElem?_eq_getElem h6
        simp [h1, hi, List.getD_eq_getElem?_getD, h7]
      · have h2 : ¬ (1 ≤ j ∧ j ≤ i + 1) := by omega
        have h3 : ¬ (i + 1 = j) := by omega
        simp [h1, h2, h3]

theorem shift_args_closed (S : List (Option CStr)) (x y n : Option CStr) :
    ((shift_args S.length (S ++ [x, y])).set 0 n).set (S.length + 1) none
      = n :: S ++ [none] := by
  apply List.ext_getElem?
  intro j
  have hlen : S.length < (S ++ [x, y]).length := by simp
  have hl2 : (shift_args S.length (S ++ [x, y])).length = S.length + 2 := by
    have : ∀ (i : Nat) (a : List (Option CStr)), (shift_args i a).length = a.length := by
      intro i
      induction i with
      | zero => intro a; rfl
      | succ i ih => intro a; rw [shift_args, ih]; simp
    rw [this]; simp
  rw [List.getElem?_set, List.getElem?_set, getElem?_shift_args _ _ _ hlen]
  rcases Nat.eq_zero_or_pos j with h0 | h0
  · subst h0
    simp [hl2]
  · obtain ⟨m, rfl⟩ : ∃ m, j = m + 1 := ⟨j - 1, by omega⟩
    by_cases h1 : m + 1 ≤ S.length
    · have h2 : ¬ (S.length + 1 = m + 1) := by omega
      have h3 : m < S.length := by omega
      simp [h1, h2, List.getElem?_append_left h3]
    · by_cases h2 : m = S.length
      · subst h2
        simp [hl2]
      · have h3 : ¬ (S.length + 1 = m + 1) := by omega
        have h4 : S.length + 1 < m + 1 := by omega
        have h5 : (S ++ [x, y]).length ≤ m + 1 := by simp; omega
        have h6 : (S ++ [none]).length ≤ m := by simp; omega
        simp [h1, h3, List.getElem?_eq_none h5, List.getElem?_eq_none h6]

theorem finish_args_args (command : command_t) (stored : List CStr)
    (h : command.args.take stored.length = stored.map some) :
    (finish_args command stored.length).args
      = some command.name :: stored.map some ++ [none] := by
  have hR : ∃ x y, realloc_args command.args (stored.length + 2)
      = stored.map some ++ [x, y] := by
    have hlen : (realloc_args command.args (stored.length + 2)).length
        = stored.length + 2 := by
      simp [realloc_args]; omega
    have htake : (realloc_args command.args (stored.length + 2)).take stored.length
        = stored.map some := by
      rw [← h]
      simp only [realloc_args]
      rw [List.take_append_eq_append_take, List.take_take]
      have h1 : stored.length ≤ command.args.length := by
        have := congrArg List.length h
        simp at this
        omega
      simp [Nat.min_eq_left (Nat.le_add_right _ 2), List.length_take, h1]
    have hd : ((realloc_args command.args (stored.length + 2)).drop stored.length).length = 2 := by
      simp [hlen]
    obtain ⟨x, y, hxy⟩ := List.length_eq_two.1 hd
    refine ⟨x, y, ?_⟩
    rw [← hxy, ← htake, List.take_append_drop]
  obtain ⟨x, y, hR⟩ := hR
  have := shift_args_closed (stored.map some) x y (some command.name)
  simp only [List.length_map] at this
  simp only [finish_args, hR]
  simpa using this

theorem dropWhile_eq_self_of_forall {p : Char → Bool} (l : CStr)
    (h : ∀ c ∈ l, p c = false) : l.dropWhile p = l := by
  cases l with
  | nil => rfl
  | cons a as => simp [List.dropWhile_cons, h a (List.mem_cons_self a as)]

theorem trim_token (t : CStr) (h : ∀ c ∈ t, isSplitter c = false) :
    trim_right (trim_left t) = t := by
  unfold trim_right trim_left
  rw [dropWhile_eq_self_of_forall t h,
    dropWhile_eq_self_of_forall t.reverse (fun c hc => h c (List.mem_reverse.1 hc)),
    List.reverse_reverse]

theorem tokens_trim_left (s : CStr) : tokens (trim_left s) = tokens s := by
  unfold trim_left
  induction s with
  | nil => rfl
  | cons c cs ih =>
    by_cases h : isSplitter c = true
    · rw [List.dropWhile_cons, if_pos h, ih, tokens_cons_of_splitter c cs h]
    · rw [List.dropWhile_cons, if_neg h]

theorem tokens_append_splitter (a : CStr) (c : Char) (b : CStr)
    (hc : isSplitter c = true) : tokens (a ++ c :: b) = tokens a ++ tokens b := by
  induction a with
  | nil =>
    rw [List.nil_append, tokens_cons_of_splitter c b hc]
    rfl
  | cons x xs ih =>
    by_cases hx : isSplitter x = true
    · rw [List.cons_append, tokens_cons_of_splitter x _ hx, ih,
        tokens_cons_of_splitter x xs hx]
    · have hx : isSplitter x = false := by simpa using hx
      cases xs with
      | nil =>
        simp [tokens, hx, hc]
      | cons d ds =>
        by_cases hd : isSplitter d = true
        · have e1 : tokens (x :: d :: ds) = [x] :: tokens (d :: ds) := by
            conv_lhs => rw [tokens]
            simp [hx, hd]
          have e2 : tokens (x :: d :: (ds ++ c :: b)) = [x] :: tokens (d :: (ds ++ c :: b)) := by
            conv_lhs => rw [tokens]
            simp [hx, hd]
          simp only [List.cons_append] at ih ⊢
          rw [e1, e2, ih]
          rfl
        · have hd : isSplitter d = false := by simpa using hd
          simp only [List.cons_append] at ih ⊢
          rw [tokens_cons_cons_of_not_splitter x d _ hx hd,
            tokens_cons_cons_of_not_splitter x d _ hx hd, ih]
          have hne : tokens (d :: ds) ≠ [] := by
            rw [tokens_eq_strtok, strtok_cons_of_not_splitter d ds hd]
            simp
          cases h : tokens (d :: ds) with
          | nil => exact absurd h hne
          | cons t ts => rfl

theorem tokens_trim_right (s : CStr) : tokens (trim_right s) = tokens s := by
  unfold trim_right
  induction s using List.reverseRecOn with
  | nil => rfl
  | append_singleton xs c ih =>
    by_cases h : isSplitter c = true
    · rw [List.reverse_append, List.reverse_singleton, List.singleton_append,
        List.dropWhile_cons, if_pos h, ih, tokens_append_splitter xs c [] h]
      simp [tokens]
    · rw [List.reverse_append, List.reverse_singleton, List.singleton_append,
        List.dropWhile_cons, if_neg h]
      simp

theorem trim_right_append_singleton (xs : CStr) (c : Char) :
    trim_right (xs ++ [c]) = if isSplitter c = true then trim_right xs else xs ++ [c] := by
  unfold trim_right
  rw [List.reverse_append, List.reverse_singleton, List.singleton_append,
    List.dropWhile_cons]
  by_cases h : isSplitter c = true
  · rw [if_pos h, if_pos h]
  · rw [if_neg h, if_neg h]
    simp

theorem trim_right_cases (s : CStr) :
    trim_right s = [] ∨ ∃ init c, trim_right s = init ++ [c] ∧ isSplitter c = false := by
  induction s using List.reverseRecOn with
  | nil => left; rfl
  | append_singleton xs c ih =>
    rw [trim_right_append_singleton]
    by_cases h : isSplitter c = true
    · rw [if_pos h]; exact ih
    · rw [if_neg h]
      exact Or.inr ⟨xs, c, rfl, by simpa using h⟩

theorem length_trim_le (s : CStr) : (trim_right (trim_left s)).length ≤ s.length := by
  unfold trim_right trim_left
  rw [List.length_reverse]
  have h1 := (List.dropWhile_suffix isSplitter (l := (List.dropWhile isSplitter s).reverse)).length_le
  have h2 := (List.dropWhile_suffix isSplitter (l := s)).length_le
  rw [List.length_reverse] at h1
  omega

theorem last_char_cons_cons (t u : CStr) (ts : List CStr) :
    last_char (t :: u :: ts) = last_char (u :: ts) := by
  simp [last_char, List.getLast?_cons_cons]

theorem last_char_tokens_append_singleton (s : CStr) (c : Char)
    (hc : isSplitter c = false) : last_char (tokens (s ++ [c])) = some c := by
  induction s with
  | nil => simp [tokens, hc, last_char]
  | cons x xs ih =>
    by_cases hx : isSplitter x = true
    · rw [List.cons_append, tokens_cons_of_splitter x _ hx]; exact ih
    · have hx : isSplitter x = false := by simpa using hx
      cases xs with
      | nil =>
        have : tokens ([x] ++ [c]) = [[x, c]] := by
          show tokens (x :: c :: []) = _
          rw [tokens_cons_cons_of_not_splitter x c [] hx hc]
          simp [tokens, hc]
        rw [this]
        simp [last_char]
      | cons d ds =>
        simp only [List.cons_append] at ih ⊢
        by_cases hd : isSplitter d = true
        · have e : tokens (x :: d :: (ds ++ [c])) = [x] :: tokens (d :: (ds ++ [c])) := by
            conv_lhs => rw [tokens]
            simp [hx, hd]
          rw [e]
          cases hT : tokens (d :: (ds ++ [c])) with
          | nil => rw [hT] at ih; simp [last_char] at ih
          | cons u us => rw [last_char_cons_cons, ← hT]; exact ih
        · have hd : isSplitter d = false := by simpa using hd
          rw [tokens_cons_cons_of_not_splitter x d _ hx hd]
          cases hT : tokens (d :: (ds ++ [c])) with
          | nil => rw [hT] at ih; simp [last_char] at ih
          | cons u us =>
            rw [hT] at ih
            cases us with
            | nil =>
              simp only [last_char, List.getLast?_singleton, Option.some_bind] at ih ⊢
              cases u with
              | nil => simp at ih
              | cons a as => rw [List.getLast?_cons_cons]; exact ih
            | cons v vs =>
              simp only [last_char_cons_cons] at ih ⊢
              exact ih

theorem getLast?_trim (s : CStr) :
    (trim_right (trim_left s)).getLast? = last_char (tokens s) := by
  have ht : tokens (trim_right (trim_left s)) = tokens s := by
    rw [tokens_trim_right, tokens_trim_left]
  rcases trim_right_cases (trim_left s) with h | ⟨init, c, h, hc⟩
  · rw [h] at ht ⊢
    rw [← ht]
    rfl
  · rw [h] at ht ⊢
    rw [← ht, last_char_tokens_append_singleton init c hc]
    simp

theorem parse_loop_nil (fresh : Nat → command_t) (fuel depth : Nat) (tail : List CStr)
    (command : command_t) (k : Nat) (c : command_t)
    (h : parse_loop fresh fuel depth tail [] command k = some c) :
    c = finish_args command k := by
  cases fuel with
  | zero => simp [parse_loop] at h
  | succ n =>
    simp only [parse_loop, strtok, List.dropWhile_nil, Option.some.injEq] at h
    exact h.symm

theorem stage_rest_cons_of_not_pipe (t : CStr) (ts : List CStr) (h : t ≠ ['|']) :
    stage_rest (t :: ts) = t :: stage_rest ts := by
  have hp2 : is_pipe t = false := by simpa [is_pipe] using h
  simp [stage_rest, List.takeWhile_cons, hp2]

theorem stage_rest_pipe (ts : List CStr) : stage_rest (['|'] :: ts) = [] := by
  simp [stage_rest, is_pipe]

/-- Every round of the loop that completes leaves the descriptor that the
token-by-token fold over the tokens before the first bare `|` gives, up to
its `next` link; each token it copied fits `temp_buf`. -/
theorem parse_loop_fold (fresh : Nat → command_t) (fuel : Nat) :
    ∀ (depth : Nat) (tail : List CStr) (olds : CStr) (command : command_t) (k : Nat)
      (c : command_t),
      parse_loop fresh fuel depth tail olds command k = some c →
      (∃ nx, c = finish_args
          { ((stage_rest (tokens olds)).foldl step_token (command, k)).1 with next := nx }
          ((stage_rest (tokens olds)).foldl step_token (command, k)).2) ∧
      (∀ t ∈ stage_rest (tokens olds), t.length < TEMP_BUF_SIZE) := by
  induction fuel with
  | zero =>
    intro depth tail olds command k c h
    simp [parse_loop] at h
  | succ n ih =>
    intro depth tail olds command k c h
    cases hs : strtok olds with
    | none =>
      simp only [parse_loop, hs, Option.some.injEq] at h
      rw [(strtok_none_iff olds).1 hs]
      exact ⟨⟨command.next, h.symm⟩, by intro t ht; simp [stage_rest] at ht⟩
    | some p =>
      obtain ⟨pch, rest⟩ := p
      obtain ⟨hne, hall, _⟩ := strtok_some_props olds pch rest hs
      simp only [parse_loop, hs] at h
      rw [strtok_some_tokens olds pch rest hs]
      by_cases hlen : TEMP_BUF_SIZE ≤ pch.length
      · rw [if_pos hlen] at h
        exact absurd h (by simp)
      · rw [if_neg hlen, trim_token pch hall, if_neg hne] at h
        by_cases hp : pch = ['|']
        · rw [if_pos hp] at h
          subst hp
          rw [stage_rest_pipe]
          refine ⟨?_, by intro t ht; simp at ht⟩
          split at h
          · exact absurd h (by simp)
          · split at h
            · exact absurd h (by simp)
            · rename_i c2 _
              exact ⟨some c2, parse_loop_nil fresh n depth tail _ k c h⟩
        · rw [if_neg hp, stage_rest_cons_of_not_pipe pch _ hp, List.foldl_cons] at *
          by_cases ha : pch = ['&']
          · rw [if_pos ha] at h
            obtain ⟨e1, e2⟩ := ih depth tail rest command k c h
            have hst : step_token (command, k) pch = (command, k) := by
              simp [step_token, ha]
            rw [hst]
            refine ⟨e1, ?_⟩
            intro t ht
            rcases List.mem_cons.1 ht with rfl | ht
            · exact Nat.lt_of_not_le hlen
            · exact e2 t ht
          · rw [if_neg ha] at h
            cases hr : redirect_index pch with
            | mk o arg =>
              rw [hr] at h
              cases o with
              | none =>
                simp only [] at h
                obtain ⟨e1, e2⟩ := ih depth tail rest _ _ c h
                have hst : step_token (command, k) pch =
                    ({ command with args :=
                        (realloc_args command.args (k + 1)).set k (some (strip_quotes arg)) },
                      k + 1) := by
                  simp [step_token, ha, hr]
                rw [hst]
                refine ⟨e1, ?_⟩
                intro t ht
                rcases List.mem_cons.1 ht with rfl | ht
                · exact Nat.lt_of_not_le hlen
                · exact e2 t ht
              | some i =>
                simp only [] at h
                obtain ⟨e1, e2⟩ := ih depth tail rest _ _ c h
                have hst : step_token (command, k) pch =
                    ({ command with redirects :=
                        command.redirects.set i (some (arg.drop 1)) }, k) := by
                  simp [step_token, ha, hr]
                rw [hst]
                refine ⟨e1, ?_⟩
                intro t ht
                rcases List.mem_cons.1 ht with rfl | ht
                · exact Nat.lt_of_not_le hlen
                · exact e2 t ht

theorem ends_at_terminator_rest (olds pch rest : CStr)
    (he : ends_at_terminator olds = true) (hs : strtok olds = some (pch, rest)) :
    rest = [] := by
  unfold ends_at_terminator at he
  unfold strtok at hs
  cases hd : List.dropWhile isSplitter olds with
  | nil => rw [hd] at hs; simp at hs
  | cons c cs =>
    rw [hd] at hs he
    simp only [Option.some.injEq, Prod.mk.injEq] at hs
    rw [← hs.2, List.isEmpty_iff.1 he]
    rfl

/-- In zero-filled memory (every `malloc` block zero, an empty string after
the terminator) a parse that completes gives the descriptor read off the
tokens. -/
theorem parse_clean_aux (fuel : Nat) :
    (∀ (depth : Nat) (tail : List CStr) (olds : CStr) (command : command_t) (k : Nat)
        (c : command_t), tail.head? = some [] →
        parse_loop (fun _ => zero_command) fuel depth tail olds command k = some c →
        c = loop_of_tokens (tokens olds) command k) ∧
    (∀ (depth : Nat) (tail : List CStr) (buf : CStr) (c : command_t),
        (tail.head? = some [] ∨ tokens buf = []) →
        parse_command (fun _ => zero_command) fuel depth tail buf zero_command = some c →
        c = stage_of_tokens (tokens buf)) := by
  induction fuel with
  | zero =>
    refine ⟨?_, ?_⟩
    · intro depth tail olds command k c _ h
      simp [parse_loop] at h
    · intro depth tail buf c _ h
      simp [parse_command] at h
  | succ n ih =>
    obtain ⟨ihL, ihP⟩ := ih
    refine ⟨?_, ?_⟩
    · intro depth tail olds command k c ht h
      cases hs : strtok olds with
      | none =>
        simp only [parse_loop, hs, Option.some.injEq] at h
        rw [(strtok_none_iff olds).1 hs, ← h]
        rfl
      | some p =>
        obtain ⟨pch, rest⟩ := p
        obtain ⟨hne, hall, _⟩ := strtok_some_props olds pch rest hs
        simp only [parse_loop, hs] at h
        rw [strtok_some_tokens olds pch rest hs, loop_of_tokens]
        by_cases hlen : TEMP_BUF_SIZE ≤ pch.length
        · rw [if_pos hlen] at h
          exact absurd h (by simp)
        · rw [if_neg hlen, trim_token pch hall, if_neg hne] at h
          by_cases hp : pch = ['|']
          · rw [if_pos hp] at h
            rw [if_pos hp]
            subst hp
            by_cases he : ends_at_terminator olds = true
            · have hrest := ends_at_terminator_rest olds _ rest he hs
              subst hrest
              cases tail with
              | nil => simp at ht
              | cons t0 tail1 =>
                simp only [List.head?_cons, Option.some.injEq] at ht
                subst ht
                simp only [he, if_true] at h
                split at h
                · exact absurd h (by simp)
                · rename_i c2 hc2
                  have e2 := ihP _ _ _ c2 (Or.inr (by decide)) hc2
                  have e3 := parse_loop_nil _ n depth _ _ k c h
                  rw [e3, e2]
                  rfl
            · have he2 : ends_at_terminator olds = false := by simpa using he
              simp only [he2, Bool.false_eq_true, if_false] at h
              split at h
              · exact absurd h (by simp)
              · rename_i c2 hc2
                have hn : (List.drop 1 (['|'] ++ ' ' :: rest)).dropWhile isSplitter
                    = trim_left rest := by
                  simp [trim_left, List.dropWhile_cons, isSplitter]
                rw [hn] at hc2
                have e2 := ihP _ _ _ c2 (Or.inl ht) hc2
                have e3 := parse_loop_nil _ n depth _ _ k c h
                rw [e3, e2, tokens_trim_left]
          · rw [if_neg hp] at h
            rw [if_neg hp]
            by_cases ha : pch = ['&']
            · rw [if_pos ha] at h
              rw [if_pos ha]
              exact ihL depth tail rest command k c ht h
            · rw [if_neg ha] at h
              rw [if_neg ha]
              cases hr : redirect_index pch with
              | mk o arg =>
                rw [hr] at h
                cases o with
                | none => exact ihL depth tail rest _ _ c ht h
                | some i => exact ihL depth tail rest _ _ c ht h
    · intro depth tail buf c ht h
      have htok : tokens (trim_right (trim_left buf)) = tokens buf := by
        rw [tokens_trim_right, tokens_trim_left]
      simp only [parse_command, getLast?_trim] at h
      cases hs : strtok (trim_right (trim_left buf)) with
      | none =>
        have h0 : tokens buf = [] := by
          rw [← htok]; exact (strtok_none_iff _).1 hs
        rw [hs, h0] at h
        simp only [last_char, List.getLast?_nil, Option.none_bind] at h
        rw [h0, parse_loop_nil _ n depth _ _ 0 c h]
        rfl
      | some p =>
        obtain ⟨pch, olds1⟩ := p
        have h1 : tokens buf = pch :: tokens olds1 := by
          rw [← htok]; exact strtok_some_tokens _ pch olds1 hs
        rw [hs] at h
        have ht2 : tail.head? = some [] := by
          rcases ht with ht | ht
          · exact ht
          · rw [h1] at ht; exact absurd ht (by simp)
        have ht3 : (List.replicate
            ((trim_left buf).length - (trim_right (trim_left buf)).length) ([] : CStr)
              ++ tail).head? = some [] := by
          cases (trim_left buf).length - (trim_right (trim_left buf)).length with
          | zero => simpa using ht2
          | succ m => simp [List.replicate_succ]
        rw [h1, stage_of_tokens]
        rw [h1] at h
        exact ihL depth _ olds1 _ 0 c ht3 h

theorem parse_mem_clean (line : CStr) (c : command_t)
    (h : parse_mem (fun _ => zero_command) [[]] line = some c) :
    c = stage_of_tokens (tokens line) :=
  (parse_clean_aux _).2 0 [[]] line c (Or.inl rfl) h

theorem parse_cases (line : CStr) :
    parse line = zero_command ∨ parse line = stage_of_tokens (tokens line) := by
  unfold parse
  cases h : parse_mem (fun _ => zero_command) [[]] line with
  | none => left; rfl
  | some c => right; exact parse_mem_clean line c h

theorem strtok_rest_length (s t r : CStr) (h : strtok s = some (t, r)) (hr : r ≠ []) :
    r.length + 2 ≤ s.length := by
  induction s with
  | nil => simp [strtok] at h
  | cons c cs ih =>
    by_cases hc : isSplitter c = true
    · rw [strtok_cons_of_splitter c cs hc] at h
      have := ih h
      simp only [List.length_cons]
      omega
    · have hc : isSplitter c = false := by simpa using hc
      rw [strtok_cons_of_not_splitter c cs hc] at h
      simp only [Option.some.injEq, Prod.mk.injEq] at h
      obtain ⟨_, rfl⟩ := h
      have h1 := (List.dropWhile_suffix (fun x => !isSplitter x) (l := cs)).length_le
      have h2 : (List.dropWhile (fun x => !isSplitter x) cs) ≠ [] := by
        intro e
        rw [e] at hr
        exact hr rfl
      have h3 : 1 ≤ (List.dropWhile (fun x => !isSplitter x) cs).length := by
        cases hd : List.dropWhile (fun x => !isSplitter x) cs with
        | nil => exact absurd hd h2
        | cons a as => simp
      simp only [List.length_drop, List.length_cons] at hr ⊢
      have h4 : (List.drop 1 (List.dropWhile (fun x => !isSplitter x) cs)).length ≠ 0 := by
        intro e
        exact hr (List.length_eq_zero.1 e)
      simp only [List.length_drop] at h4
      omega

theorem getLast?_cons_ne (t : CStr) (ts : List CStr)
    (h : (t :: ts).getLast? ≠ some ['|']) : ts.getLast? ≠ some ['|'] := by
  cases ts with
  | nil => simp
  | cons u us => rwa [List.getLast?_cons_cons] at h

theorem parse_loop_nil_some (fresh : Nat → command_t) (m depth : Nat) (tail : List CStr)
    (command : command_t) (k : Nat) :
    parse_loop fresh (m + 1) depth tail [] command k = some (finish_args command k) := by
  simp only [parse_loop, strtok, List.dropWhile_nil]

/-- Enough fuel gives a result: on a text whose tokens after the first are
shorter than `temp_buf` and whose last token is not a bare `|`, a call with
more fuel than the text is long completes, whatever the memory holds. -/
theorem parse_defined_aux (fresh : Nat → command_t) (fuel : Nat) :
    (∀ (depth : Nat) (tail : List CStr) (olds : CStr) (command : command_t) (k : Nat),
        olds.length < fuel →
        (∀ t ∈ tokens olds, t.length < TEMP_BUF_SIZE) →
        (tokens olds).getLast? ≠ some ['|'] →
        ∃ c, parse_loop fresh fuel depth tail olds command k = some c) ∧
    (∀ (depth : Nat) (tail : List CStr) (buf : CStr) (command : command_t),
        buf.length + 1 < fuel →
        (∀ t ∈ (tokens buf).tail, t.length < TEMP_BUF_SIZE) →
        (tokens buf).getLast? ≠ some ['|'] →
        ∃ c, parse_command fresh fuel depth tail buf command = some c) := by
  induction fuel with
  | zero =>
    exact ⟨fun _ _ _ _ _ h => absurd h (Nat.not_lt_zero _),
      fun _ _ _ _ h => absurd h (Nat.not_lt_zero _)⟩
  | succ n ih =>
    obtain ⟨ihL, ihP⟩ := ih
    refine ⟨?_, ?_⟩
    · intro depth tail olds command k hlen hfit hlast
      cases hs : strtok olds with
      | none =>
        refine ⟨finish_args command k, ?_⟩
        simp only [parse_loop, hs]
      | some p =>
        obtain ⟨pch, rest⟩ := p
        obtain ⟨hne, hall, hlt⟩ := strtok_some_props olds pch rest hs
        have htok := strtok_some_tokens olds pch rest hs
        rw [htok] at hfit hlast
        have hp1 : ¬ TEMP_BUF_SIZE ≤ pch.length :=
          Nat.not_le_of_lt (hfit pch (List.mem_cons_self _ _))
        have hfit2 : ∀ t ∈ tokens rest, t.length < TEMP_BUF_SIZE :=
          fun t ht => hfit t (List.mem_cons_of_mem _ ht)
        have hlast2 := getLast?_cons_ne pch _ hlast
        have hrec : ∀ (cmd : command_t) (j : Nat),
            ∃ c, parse_loop fresh n depth tail rest cmd j = some c :=
          fun cmd j => ihL depth tail rest cmd j (by omega) hfit2 hlast2
        simp only [parse_loop, hs, if_neg hp1, trim_token pch hall, if_neg hne]
        by_cases hp : pch = ['|']
        · rw [if_pos hp]
          subst hp
          have hrne : tokens rest ≠ [] := by
            intro e
            rw [e] at hlast
            exact hlast rfl
          have hrest : rest ≠ [] := by
            intro e
            rw [e] at hrne
            exact hrne rfl
          have he : ends_at_terminator olds = false := by
            cases he : ends_at_terminator olds with
            | false => rfl
            | true => exact absurd (ends_at_terminator_rest olds _ rest he hs) hrest
          have h2 := strtok_rest_length olds _ rest hs hrest
          have hn : (List.drop 1 (['|'] ++ ' ' :: rest)).dropWhile isSplitter
              = trim_left rest := by
            simp [trim_left, List.dropWhile_cons, isSplitter]
          have hl := (List.dropWhile_suffix isSplitter (l := rest)).length_le
          obtain ⟨c2, hc2⟩ := ihP (depth + 1) tail (trim_left rest) (fresh depth)
            (by unfold trim_left; omega)
            (by rw [tokens_trim_left]
                exact fun t ht => hfit2 t (List.mem_of_mem_tail ht))
            (by rw [tokens_trim_left]; exact hlast2)
          simp only [he, Bool.false_eq_true, if_false, hn, hc2]
          cases n with
          | zero => omega
          | succ m => exact ⟨_, parse_loop_nil_some fresh m depth tail _ k⟩
        · rw [if_neg hp]
          by_cases ha : pch = ['&']
          · rw [if_pos ha]
            exact hrec _ _
          · rw [if_neg ha]
            cases hr : redirect_index pch with
            | mk o arg =>
              cases o with
              | none => exact hrec _ _
              | some i => exact hrec _ _
    · intro depth tail buf command hlen hfit hlast
      have htok : tokens (trim_right (trim_left buf)) = tokens buf := by
        rw [tokens_trim_right, tokens_trim_left]
      have hl := length_trim_le buf
      simp only [parse_command]
      cases hs : strtok (trim_right (trim_left buf)) with
      | none =>
        cases n with
        | zero => omega
        | succ m => exact ⟨_, parse_loop_nil_some fresh m depth _ _ 0⟩
      | some p =>
        obtain ⟨pch, olds1⟩ := p
        obtain ⟨_, _, hlt⟩ := strtok_some_props _ pch olds1 hs
        have h1 : tokens buf = pch :: tokens olds1 := by
          rw [← htok]; exact strtok_some_tokens _ pch olds1 hs
        rw [h1] at hfit hlast
        exact ihL depth _ olds1 _ 0 (by omega) hfit (getLast?_cons_ne pch _ hlast)

theorem parse_mem_defined (fresh : Nat → command_t) (tail : List CStr) (line : CStr)
    (hfit : ∀ t ∈ (tokens line).tail, t.length < TEMP_BUF_SIZE)
    (hlast : (tokens line).getLast? ≠ some ['|']) :
    ∃ c, parse_mem fresh tail line = some c :=
  (parse_defined_aux fresh _).2 0 tail line zero_command (by omega) hfit hlast

theorem loop_of_tokens_eq_fold (ts : List CStr) (command : command_t) (k : Nat) :
    loop_of_tokens ts command k =
      finish_args
        { ((stage_rest ts).foldl step_token (command, k)).1 with
          next := match after_pipe ts with
            | none => ((stage_rest ts).foldl step_token (command, k)).1.next
            | some r => some (stage_of_tokens r) }
        ((stage_rest ts).foldl step_token (command, k)).2 := by
  induction ts generalizing command k with
  | nil => rfl
  | cons t ts ih =>
    rw [loop_of_tokens]
    by_cases hp : t = ['|']
    · subst hp
      simp [stage_rest, after_pipe, is_pipe]
    · have hp2 : is_pipe t = false := by simpa [is_pipe] using hp
      have e1 : stage_rest (t :: ts) = t :: stage_rest ts := by
        simp [stage_rest, List.takeWhile_cons, hp2]
      have e2 : after_pipe (t :: ts) = after_pipe ts := by
        simp [after_pipe, List.dropWhile_cons, hp2]
      rw [if_neg hp, e1, e2, List.foldl_cons]
      by_cases ha : t = ['&']
      · rw [if_pos ha, ih]
        simp [step_token, ha]
      · rw [if_neg ha]
        cases hr : redirect_index t with
        | mk o arg =>
          cases o with
          | none =>
            simp only []
            rw [ih]
            simp [step_token, ha, hr]
          | some i =>
            simp only []
            rw [ih]
            simp [step_token, ha, hr]

theorem redirect_index_eq (t : CStr) :
    redirect_index t =
      if begins_append t = true then (some 2, t.drop 1)
      else if begins_out t = true then (some 1, t)
      else if begins_in t = true then (some 0, t)
      else (none, t) := by
  unfold redirect_index begins_append begins_out begins_in
  cases t with
  | nil => simp
  | cons a as =>
    cases as with
    | nil =>
      by_cases h1 : a = '>'
      · simp [h1]
      · by_cases h2 : a = '<'
        · simp [h2]
        · simp [h1, h2]
    | cons b bs =>
      by_cases h1 : a = '>'
      · by_cases h3 : b = '>'
        · simp [h1, h3]
        · simp [h1, h3]
      · by_cases h2 : a = '<'
        · simp [h2]
        · simp [h1, h2]

theorem step_token_eq (s : command_t × Nat) (t : CStr) :
    step_token s t =
      if t = ['&'] then s
      else if begins_append t = true then
        ({ s.1 with redirects := s.1.redirects.set 2 (some (t.drop 2)) }, s.2)
      else if begins_out t = true then
        ({ s.1 with redirects := s.1.redirects.set 1 (some (t.drop 1)) }, s.2)
      else if begins_in t = true then
        ({ s.1 with redirects := s.1.redirects.set 0 (some (t.drop 1)) }, s.2)
      else
        ({ s.1 with args :=
            (realloc_args s.1.args (s.2 + 1)).set s.2 (some (strip_quotes t)) },
          s.2 + 1) := by
  unfold step_token
  rw [redirect_index_eq]
  by_cases ha : t = ['&']
  · simp [ha]
  · by_cases h1 : begins_append t = true
    · simp [ha, h1, List.drop_drop]
    · by_cases h2 : begins_out t = true
      · simp [ha, h1, h2]
      · by_cases h3 : begins_in t = true
        · simp [ha, h1, h2, h3]
        · simp [ha, h1, h2, h3]

theorem step_token_fields (s : command_t × Nat) (t : CStr) :
    (step_token s t).1.name = s.1.name ∧
    (step_token s t).1.background = s.1.background ∧
    (step_token s t).1.auto_complete = s.1.auto_complete ∧
    (step_token s t).1.next = s.1.next := by
  rw [step_token_eq]
  split_ifs <;> simp

theorem fold_step_fields (pre : List CStr) (s : command_t × Nat) :
    (pre.foldl step_token s).1.name = s.1.name ∧
    (pre.foldl step_token s).1.background = s.1.background ∧
    (pre.foldl step_token s).1.auto_complete = s.1.auto_complete ∧
    (pre.foldl step_token s).1.next = s.1.next := by
  induction pre generalizing s with
  | nil => simp
  | cons t ts ih =>
    rw [List.foldl_cons]
    obtain ⟨h1, h2, h3, h4⟩ := ih (step_token s t)
    obtain ⟨g1, g2, g3, g4⟩ := step_token_fields s t
    exact ⟨h1.trans g1, h2.trans g2, h3.trans g3, h4.trans g4⟩

theorem take_set_realloc (a : List (Option CStr)) (k : Nat) (x : Option CStr)
    (hk : k ≤ a.length) :
    ((realloc_args a (k + 1)).set k x).take (k + 1) = a.take k ++ [x] := by
  have hlen : (realloc_args a (k + 1)).length = k + 1 := by
    simp [realloc_args]; omega
  have htake : (realloc_args a (k + 1)).take k = a.take k := by
    simp only [realloc_args]
    rw [List.take_append_eq_append_take, List.take_take]
    simp [Nat.min_eq_left (Nat.le_succ k), List.length_take, hk]
  rw [List.set_eq_take_append_cons_drop, if_pos (by omega), htake]
  have hd : (realloc_args a (k + 1)).drop (k + 1) = [] := by
    apply List.drop_eq_nil_of_le; omega
  rw [hd]
  apply List.take_of_length_le
  simp [List.length_take, hk]

theorem is_ordinary_iff (t : CStr) (hp : is_pipe t = false) :
    is_ordinary t = true ↔
      t ≠ ['&'] ∧ begins_append t = false ∧ begins_out t = false ∧ begins_in t = false := by
  unfold is_ordinary begins_append begins_out begins_in
  unfold is_pipe at hp
  have hp2 : t ≠ ['|'] := by simpa using hp
  by_cases h1 : t.head? = some '>'
  · by_cases h3 : t.get? 1 = some '>'
    · simp [h1, h3]
    · simp [h1, h3]
  · by_cases h2 : t.head? = some '<'
    · simp [h2]
    · simp [h1, h2, hp2]

theorem fold_step_args (pre : List CStr) (s : command_t × Nat) (stored : List CStr)
    (hpre : ∀ t ∈ pre, is_pipe t = false)
    (hlen : stored.length = s.2)
    (h : s.1.args.take s.2 = stored.map some) :
    (pre.foldl step_token s).2 = s.2 + (ord_args pre).length ∧
    (pre.foldl step_token s).1.args.take (pre.foldl step_token s).2
      = (stored ++ ord_args pre).map some := by
  induction pre generalizing s stored with
  | nil => simp [ord_args, h]
  | cons t ts ih =>
    rw [List.foldl_cons]
    have hp : is_pipe t = false := hpre t (List.mem_cons_self t ts)
    have hts : ∀ u ∈ ts, is_pipe u = false := fun u hu => hpre u (List.mem_cons_of_mem t hu)
    by_cases ho : is_ordinary t = true
    · obtain ⟨h1, h2, h3, h4⟩ := (is_ordinary_iff t hp).1 ho
      have hstep : step_token s t =
          ({ s.1 with args :=
              (realloc_args s.1.args (s.2 + 1)).set s.2 (some (strip_quotes t)) },
            s.2 + 1) := by
        rw [step_token_eq]
        simp [h1, h2, h3, h4]
      have hk : s.2 ≤ s.1.args.length := by
        have := congrArg List.length h
        simp at this
        omega
      have := ih (step_token s t) (stored ++ [strip_quotes t]) hts
        (by rw [hstep]; simp [hlen])
        (by rw [hstep]; simp only []; rw [take_set_realloc _ _ _ hk, h]; simp)
      rw [hstep] at this ⊢
      obtain ⟨e1, e2⟩ := this
      have eo : ord_args (t :: ts) = strip_quotes t :: ord_args ts := by
        simp [ord_args, List.filter_cons, ho]
      rw [eo]
      refine ⟨?_, ?_⟩
      · rw [e1]; simp only [List.length_cons]; omega
      · rw [e2]; simp
    · have ho2 : is_ordinary t = false := by simpa using ho
      have eo : ord_args (t :: ts) = ord_args ts := by
        simp [ord_args, List.filter_cons, ho2]
      have hstep : (step_token s t).2 = s.2 ∧ (step_token s t).1.args = s.1.args := by
        rw [step_token_eq]
        split_ifs with c1 c2 c3 c4
        · exact ⟨rfl, rfl⟩
        · exact ⟨rfl, rfl⟩
        · exact ⟨rfl, rfl⟩
        · exact ⟨rfl, rfl⟩
        · exfalso
          apply ho
          rw [is_ordinary_iff t hp]
          exact ⟨c1, by simpa using c2, by simpa using c3, by simpa using c4⟩
      have := ih (step_token s t) stored hts (by rw [hstep.1]; exact hlen)
        (by rw [hstep.1, hstep.2]; exact h)
      rw [eo]
      rw [hstep.1] at this
      exact this

theorem getLast?_filter_append_singleton (p : CStr → Bool) (d : CStr → CStr)
    (pre : List CStr) (t : CStr) :
    ((pre ++ [t]).filter p).getLast?.map d =
      if p t = true then some (d t) else (pre.filter p).getLast?.map d := by
  rw [List.filter_append]
  by_cases h : p t = true
  · simp [List.filter_cons, h]
  · simp [List.filter_cons, h]

theorem begins_exclusive (t : CStr) :
    (begins_append t = true → begins_out t = false ∧ begins_in t = false) ∧
    (begins_out t = true → begins_append t = false ∧ begins_in t = false) ∧
    (begins_in t = true → begins_append t = false ∧ begins_out t = false) := by
  unfold begins_append begins_out begins_in
  by_cases h1 : t.head? = some '>'
  · by_cases h3 : t.get? 1 = some '>'
    · simp [h1, h3]
    · simp [h1, h3]
  · simp [h1]

theorem fold_step_redirects (pre : List CStr) (s : command_t × Nat)
    (h : s.1.redirects = [none, none, none]) :
    (pre.foldl step_token s).1.redirects
      = [slot_in pre, slot_out pre, slot_append pre] := by
  induction pre using List.reverseRecOn with
  | nil => simpa [slot_in, slot_out, slot_append] using h
  | append_singleton pre t ih =>
    rw [List.foldl_append, List.foldl_cons, List.foldl_nil, step_token_eq]
    unfold slot_in slot_out slot_append at ih ⊢
    rw [getLast?_filter_append_singleton, getLast?_filter_append_singleton,
      getLast?_filter_append_singleton]
    obtain ⟨x1, x2, x3⟩ := begins_exclusive t
    have a1 : begins_in ['&'] = false := by decide
    have a2 : begins_out ['&'] = false := by decide
    have a3 : begins_append ['&'] = false := by decide
    split_ifs with c1 c2 c3 c4 <;> simp_all

theorem mem_stage_rest (ts : List CStr) : ∀ t ∈ stage_rest ts, is_pipe t = false := by
  intro t ht
  have := List.mem_takeWhile_imp ht
  simpa using this

theorem parse_loop_fields (fresh : Nat → command_t) (fuel depth : Nat)
    (tail : List CStr) (olds : CStr) (command c : command_t)
    (h : parse_loop fresh fuel depth tail olds command 0 = some c) :
    c.name = command.name ∧
    c.arg_count = (ord_args (stage_rest (tokens olds))).length + 2 ∧
    c.args = some command.name :: (ord_args (stage_rest (tokens olds))).map some ++ [none] ∧
    (∀ t ∈ stage_rest (tokens olds), t.length < TEMP_BUF_SIZE) := by
  obtain ⟨⟨nx, e⟩, hfit⟩ := parse_loop_fold fresh fuel depth tail olds command 0 c h
  obtain ⟨f1, _, _, _⟩ := fold_step_fields (stage_rest (tokens olds)) (command, 0)
  obtain ⟨g1, g2⟩ := fold_step_args (stage_rest (tokens olds)) (command, 0) []
    (mem_stage_rest (tokens olds)) rfl (by simp)
  simp only [Nat.zero_add, List.nil_append] at g1 g2
  generalize List.foldl step_token (command, 0) (stage_rest (tokens olds)) = F
    at f1 g1 g2 e
  obtain ⟨d, k⟩ := F
  simp only [] at f1 g1 g2 e
  subst g1
  have ha := finish_args_args { d with next := nx } (ord_args (stage_rest (tokens olds))) g2
  rw [e]
  refine ⟨f1, rfl, ?_, hfit⟩
  rw [ha]
  show some d.name :: _ = _
  rw [f1]
  rfl

/-- What a completed call of `parse_command` leaves in the name and the
argument vector of the descriptor it fills, for any memory and any incoming
descriptor: read off the tokens of its text. -/
theorem parse_command_fields (fresh : Nat → command_t) (fuel depth : Nat)
    (tail : List CStr) (buf : CStr) (command c : command_t)
    (h : parse_command fresh fuel depth tail buf command = some c) :
    c.name = (tokens buf).headD [] ∧
    c.arg_count = (ord_args (stage_rest (tokens buf).tail)).length + 2 ∧
    c.args = some c.name :: (ord_args (stage_rest (tokens buf).tail)).map some ++ [none] ∧
    (∀ t ∈ stage_rest (tokens buf).tail, t.length < TEMP_BUF_SIZE) := by
  have htok : tokens (trim_right (trim_left buf)) = tokens buf := by
    rw [tokens_trim_right, tokens_trim_left]
  cases fuel with
  | zero => simp [parse_command] at h
  | succ n =>
    simp only [parse_command] at h
    cases hs : strtok (trim_right (trim_left buf)) with
    | none =>
      have h0 : tokens buf = [] := by
        rw [← htok]; exact (strtok_none_iff _).1 hs
      rw [hs] at h
      obtain ⟨a1, a2, a3, a4⟩ := parse_loop_fields fresh n depth _ [] _ c h
      rw [h0]
      exact ⟨a1, a2, by rw [a3, a1]; rfl, a4⟩
    | some p =>
      obtain ⟨pch, olds1⟩ := p
      have h1 : tokens buf = pch :: tokens olds1 := by
        rw [← htok]; exact strtok_some_tokens _ pch olds1 hs
      rw [hs] at h
      obtain ⟨a1, a2, a3, a4⟩ := parse_loop_fields fresh n depth _ olds1 _ c h
      rw [h1]
      exact ⟨a1, a2, by rw [a3, a1]; rfl, a4⟩

theorem loop_of_tokens_spec (ts : List CStr) (command : command_t)
    (hr : command.redirects = [none, none, none]) :
    (loop_of_tokens ts command 0).name = command.name ∧
    (loop_of_tokens ts command 0).background = command.background ∧
    (loop_of_tokens ts command 0).auto_complete = command.auto_complete ∧
    (loop_of_tokens ts command 0).arg_count = (ord_args (stage_rest ts)).length + 2 ∧
    (loop_of_tokens ts command 0).args
      = some command.name :: (ord_args (stage_rest ts)).map some ++ [none] ∧
    (loop_of_tokens ts command 0).redirects
      = [slot_in (stage_rest ts), slot_out (stage_rest ts), slot_append (stage_rest ts)] ∧
    (loop_of_tokens ts command 0).next
      = match after_pipe ts with
        | none => command.next
        | some r => some (stage_of_tokens r) := by
  rw [loop_of_tokens_eq_fold]
  obtain ⟨f1, f2, f3, f4⟩ := fold_step_fields (stage_rest ts) (command, 0)
  obtain ⟨g1, g2⟩ := fold_step_args (stage_rest ts) (command, 0) [] (mem_stage_rest ts)
    rfl (by simp)
  have g3 := fold_step_redirects (stage_rest ts) (command, 0) hr
  simp only [Nat.zero_add, List.nil_append] at g1 g2
  generalize List.foldl step_token (command, 0) (stage_rest ts) = F at f1 f2 f3 f4 g1 g2 g3
  obtain ⟨c, k⟩ := F
  simp only [] at f1 f2 f3 f4 g1 g2 g3
  subst g1
  refine ⟨f1, f2, f3, rfl, ?_, g3, ?_⟩
  · have := finish_args_args
      { c with next := match after_pipe ts with
          | none => c.next
          | some r => some (stage_of_tokens r) }
      (ord_args (stage_rest ts)) g2
    rw [this, f1]
  · show (match after_pipe ts with
        | none => c.next
        | some r => some (stage_of_tokens r)) = _
    rw [f4]

/-- The name of a stage: its first token, or the empty string. -/
theorem stage_of_tokens_spec (toks : List CStr) :
    (stage_of_tokens toks).name = toks.headD [] ∧
    (stage_of_tokens toks).background = decide (last_char toks = some '&') ∧
    (stage_of_tokens toks).auto_complete = decide (last_char toks = some '?') ∧
    (stage_of_tokens toks).arg_count = (ord_args (stage_rest toks.tail)).length + 2 ∧
    (stage_of_tokens toks).args
      = some (toks.headD []) :: (ord_args (stage_rest toks.tail)).map some ++ [none] ∧
    (stage_of_tokens toks).redirects
      = [slot_in (stage_rest toks.tail), slot_out (stage_rest toks.tail),
         slot_append (stage_rest toks.tail)] ∧
    (stage_of_tokens toks).next = (after_pipe toks.tail).map stage_of_tokens := by
  cases toks with
  | nil => exact ⟨rfl, rfl, rfl, rfl, rfl, rfl, rfl⟩
  | cons t ts =>
    rw [stage_of_tokens]
    simp only [List.headD_cons, List.tail_cons]
    have key : ∀ command : command_t, command.redirects = [none, none, none] →
        command.next = none → command.name = t →
        (loop_of_tokens ts command 0).name = t ∧
        (loop_of_tokens ts command 0).background = command.background ∧
        (loop_of_tokens ts command 0).auto_complete = command.auto_complete ∧
        (loop_of_tokens ts command 0).arg_count = (ord_args (stage_rest ts)).length + 2 ∧
        (loop_of_tokens ts command 0).args
          = some t :: (ord_args (stage_rest ts)).map some ++ [none] ∧
        (loop_of_tokens ts command 0).redirects
          = [slot_in (stage_rest ts), slot_out (stage_rest ts), slot_append (stage_rest ts)] ∧
        (loop_of_tokens ts command 0).next = (after_pipe ts).map stage_of_tokens := by
      intro command h1 h2 h3
      obtain ⟨a1, a2, a3, a4, a5, a6, a7⟩ := loop_of_tokens_spec ts command h1
      refine ⟨a1.trans h3, a2, a3, a4, by rw [a5, h3], a6, ?_⟩
      rw [a7, h2]
      cases after_pipe ts <;> rfl
    by_cases h1 : last_char (t :: ts) = some '?'
    · have h2 : ¬ last_char (t :: ts) = some '&' := by rw [h1]; decide
      rw [if_pos h1, if_neg h2, decide_eq_true h1, decide_eq_false h2]
      exact key _ rfl rfl rfl
    · by_cases h2 : last_char (t :: ts) = some '&'
      · rw [if_neg h1, if_pos h2, decide_eq_false h1, decide_eq_true h2]
        exact key _ rfl rfl rfl
      · rw [if_neg h1, if_neg h2, decide_eq_false h1, decide_eq_false h2]
        exact key _ rfl rfl rfl

theorem chain_eq (c : command_t) :
    chain c = c :: (match c.next with
      | none => []
      | some d => chain d) := by
  obtain ⟨n, b, a, k, as, r, nx⟩ := c
  cases nx with
  | none => simp [chain]
  | some d => simp [chain]

theorem stages_from_eq (toks : List CStr) :
    stages_from toks = toks :: stages_after toks.tail := by
  cases toks with
  | nil => simp [stages_from, stages_after]
  | cons t ts => simp [stages_from]

theorem stages_after_eq (ts : List CStr) :
    stages_after ts = match after_pipe ts with
      | none => []
      | some r => stages_from r := by
  induction ts with
  | nil => simp [stages_after, after_pipe]
  | cons t ts ih =>
    by_cases h : is_pipe t = true
    · simp [stages_after, after_pipe, List.dropWhile_cons, h]
    · have h2 : is_pipe t = false := by simpa using h
      have e : after_pipe (t :: ts) = after_pipe ts := by
        simp [after_pipe, List.dropWhile_cons, h2]
      rw [e, ← ih]
      simp [stages_after, h2]

theorem after_pipe_length (ts r : List CStr) (h : after_pipe ts = some r) :
    r.length < ts.length := by
  unfold after_pipe at h
  have hs := (List.dropWhile_suffix (fun t => !is_pipe t) (l := ts)).length_le
  cases hd : List.dropWhile (fun t => !is_pipe t) ts with
  | nil => rw [hd] at h; simp at h
  | cons x xs =>
    rw [hd] at h hs
    simp only [Option.some.injEq] at h
    subst h
    simp only [List.length_cons] at hs
    omega

theorem chain_stage_of_tokens_aux (n : Nat) :
    ∀ toks : List CStr, toks.length ≤ n →
      chain (stage_of_tokens toks) = (stages_from toks).map stage_of_tokens := by
  induction n with
  | zero =>
    intro toks h
    have : toks = [] := List.length_eq_zero.1 (Nat.le_zero.1 h)
    subst this
    rfl
  | succ n ih =>
    intro toks h
    rw [chain_eq, stages_from_eq, (stage_of_tokens_spec toks).2.2.2.2.2.2,
      stages_after_eq, List.map_cons]
    cases hr : after_pipe toks.tail with
    | none => simp
    | some r =>
      have h1 := after_pipe_length _ _ hr
      have h2 : toks.tail.length ≤ toks.length := by simp
      have h3 : toks.length ≠ 0 := by
        intro h0
        have : toks = [] := List.length_eq_zero.1 h0
        subst this
        simp [after_pipe] at hr
      have h4 : toks.tail.length = toks.length - 1 := by simp
      simp only [Option.map_some']
      rw [ih r (by omega)]

theorem chain_parse (line : CStr) :
    parse line = zero_command ∨
      chain (parse line) = (stages_from (tokens line)).map stage_of_tokens := by
  rcases parse_cases line with h | h
  · exact Or.inl h
  · right
    rw [h]
    exact chain_stage_of_tokens_aux _ _ (Nat.le_refl _)

/-- C1 (failing input): the line `ls | wc` parsed when the block `malloc`
returns for the second stage still holds an old slot. The head stage is that
of `ls` parsed alone, but the stage behind `next` has `x` in slot 1, which
`wc` parsed alone (on the descriptor `main` clears) does not have. -/
theorem C1_nested_descriptor_not_cleared :
    (parse_mem stale_heap [[]] "ls | wc".toList).map
        (fun c => (c.name, c.args, c.redirects))
      = some ((parse "ls".toList).name, (parse "ls".toList).args,
              (parse "ls".toList).redirects) ∧
    (parse_mem stale_heap [[]] "ls | wc".toList).map
        (fun c => c.next.map (fun d => (d.name, d.args, d.redirects)))
      = some (some ("wc".toList, [some "wc".toList, none], [none, some ['x'], none])) ∧
    ((parse "wc".toList).name, (parse "wc".toList).args, (parse "wc".toList).redirects)
      = ("wc".toList, [some "wc".toList, none], [none, none, none]) := by
  exact ⟨rfl, rfl, rfl⟩

theorem tokens_no_splitter_aux (n : Nat) :
    ∀ s : CStr, s.length ≤ n → ∀ t ∈ tokens s, t ≠ [] ∧ ∀ c ∈ t, isSplitter c = false := by
  induction n with
  | zero =>
    intro s hs t ht
    have : s = [] := List.length_eq_zero.1 (Nat.le_zero.1 hs)
    subst this
    simp [tokens] at ht
  | succ n ih =>
    intro s hs t ht
    cases h : strtok s with
    | none =>
      rw [(strtok_none_iff s).1 h] at ht
      simp at ht
    | some p =>
      obtain ⟨u, r⟩ := p
      obtain ⟨h1, h2, h3⟩ := strtok_some_props s u r h
      rw [strtok_some_tokens s u r h] at ht
      rcases List.mem_cons.1 ht with rfl | ht
      · exact ⟨h1, h2⟩
      · exact ih r (by omega) t ht

theorem tokens_no_splitter (s : CStr) :
    ∀ t ∈ tokens s, t ≠ [] ∧ ∀ c ∈ t, isSplitter c = false :=
  tokens_no_splitter_aux s.length s (Nat.le_refl _)

theorem stages_suffix (ts : List CStr) :
    (∀ toks ∈ stages_from ts, toks <:+ ts) ∧ (∀ toks ∈ stages_after ts, toks <:+ ts) := by
  induction ts with
  | nil =>
    refine ⟨?_, ?_⟩
    · intro toks h
      simp [stages_from] at h
      subst h
      exact List.suffix_refl _
    · intro toks h
      simp [stages_after] at h
  | cons t ts ih =>
    obtain ⟨ih1, ih2⟩ := ih
    have hA : ∀ toks ∈ stages_after (t :: ts), toks <:+ t :: ts := by
      intro toks h
      rw [stages_after] at h
      by_cases hp : is_pipe t = true
      · rw [if_pos hp] at h
        exact (ih1 toks h).trans (List.suffix_cons t ts)
      · rw [if_neg hp] at h
        exact (ih2 toks h).trans (List.suffix_cons t ts)
    refine ⟨?_, hA⟩
    intro toks h
    rw [stages_from] at h
    rcases List.mem_cons.1 h with rfl | h
    · exact List.suffix_refl _
    · exact (ih2 toks h).trans (List.suffix_cons t ts)

theorem stage_mem_chain (line : CStr) (c : command_t) (h : c ∈ chain (parse line)) :
    c = zero_command ∨ ∃ toks, toks <:+ tokens line ∧ c = stage_of_tokens toks := by
  rcases chain_parse line with h0 | h1
  · left
    rw [h0] at h
    simpa [chain, zero_command] using h
  · right
    rw [h1] at h
    obtain ⟨toks, h2, h3⟩ := List.mem_map.1 h
    exact ⟨toks, (stages_suffix (tokens line)).1 toks h2, h3.symm⟩

theorem strip_quotes_subset (t : CStr) : ∀ c ∈ strip_quotes t, c ∈ t := by
  intro c hc
  unfold strip_quotes at hc
  split_ifs at hc
  · exact (List.dropLast_subset t) ((List.drop_subset 1 _) hc)
  · exact hc

/-- C6 (counterexample): `echo "a b"` is split inside the quotes into the two
arguments `"a` and `b"`; it does not yield the single argument `a b`. -/
theorem C6_counterexample :
    (parse ("echo ".toList ++ [DQUOTE] ++ "a b".toList ++ [DQUOTE])).args
        = [some "echo".toList, some [DQUOTE, 'a'], some ['b', DQUOTE], none] ∧
    (parse ("echo ".toList ++ [DQUOTE] ++ "a b".toList ++ [DQUOTE])).args
        ≠ [some "echo".toList, some "a b".toList, none] := by
  decide

/-- C6 (amended): the line is split at every run of spaces or tabs, inside
quotes too, so no stored name or argument of any stage contains a space or a
tab; `echo "a b"` gives the arguments `"a` and `b"`, while a whitespace-free
quoted token as in `echo "ab"` is one argument stored without its quotes.
The first part holds as well for the stage any completed call of
`parse_command` fills, whatever the memory holds. -/
theorem C6_split_ignores_quotes (line : CStr) :
    (∀ c ∈ chain (parse line), ∀ a, some a ∈ c.args → ∀ ch ∈ a, isSplitter ch = false) ∧
    (parse ("echo ".toList ++ [DQUOTE] ++ "a b".toList ++ [DQUOTE])).args
        = [some "echo".toList, some [DQUOTE, 'a'], some ['b', DQUOTE], none] ∧
    (parse ("echo ".toList ++ [DQUOTE] ++ "ab".toList ++ [DQUOTE])).args
        = [some "echo".toList, some "ab".toList, none] ∧
    (∀ (fresh : Nat → command_t) (fuel depth : Nat) (tail : List CStr) (buf : CStr)
        (command c : command_t),
      parse_command fresh fuel depth tail buf command = some c →
      ∀ a, some a ∈ c.args → ∀ ch ∈ a, isSplitter ch = false) := by
  refine ⟨?_, by decide, by decide, ?_⟩
  swap
  · intro fresh fuel depth tail buf command c h a ha ch hch
    obtain ⟨a1, _, a5, _⟩ := parse_command_fields fresh fuel depth tail buf command c h
    have htok : ∀ t ∈ tokens buf, ∀ x ∈ t, isSplitter x = false := fun t ht =>
      (tokens_no_splitter buf t ht).2
    rw [a5, a1] at ha
    simp only [List.cons_append, List.mem_cons, List.mem_append, List.mem_map,
      List.mem_singleton, Option.some.injEq] at ha
    rcases ha with ha | ha | ha
    · subst ha
      cases hb : tokens buf with
      | nil => rw [hb] at hch; simp at hch
      | cons t ts =>
        rw [hb] at hch
        exact htok t (hb ▸ List.mem_cons_self t ts) ch (by simpa using hch)
    · obtain ⟨b, hb, rfl⟩ := ha
      unfold ord_args at hb
      obtain ⟨t, ht, rfl⟩ := List.mem_map.1 hb
      have h1 : t ∈ stage_rest (tokens buf).tail := (List.mem_filter.1 ht).1
      have h2 : t ∈ (tokens buf).tail := (List.takeWhile_sublist _).subset h1
      exact htok t (List.mem_of_mem_tail h2) ch (strip_quotes_subset t ch hch)
    · exact absurd ha (by simp)
  intro c hc a ha ch hch
  rcases stage_mem_chain line c hc with rfl | ⟨toks, hsuf, rfl⟩
  · simp [zero_command] at ha
  have htok : ∀ t ∈ toks, ∀ x ∈ t, isSplitter x = false := fun t ht =>
    (tokens_no_splitter line t (hsuf.subset ht)).2
  rw [(stage_of_tokens_spec toks).2.2.2.2.1] at ha
  simp only [List.cons_append, List.mem_cons, List.mem_append, List.mem_map,
    List.mem_singleton, Option.some.injEq] at ha
  rcases ha with ha | ha | ha
  · subst ha
    cases toks with
    | nil => simp at hch
    | cons t ts => exact htok t (List.mem_cons_self t ts) ch (by simpa using hch)
  · obtain ⟨b, hb, rfl⟩ := ha
    unfold ord_args at hb
    obtain ⟨t, ht, rfl⟩ := List.mem_map.1 hb
    have h1 : t ∈ stage_rest toks.tail := (List.mem_filter.1 ht).1
    have h2 : t ∈ toks.tail := (List.takeWhile_sublist _).subset h1
    exact htok t (List.mem_of_mem_tail h2) ch (strip_quotes_subset t ch hch)
  · exact absurd ha (by simp)

/-- C7 (failing input): the line `ls -l | sort` parsed when the block
`malloc` returns for the second stage still holds an old slot. The second
stage consists of the one token `sort`, so no token after its name begins
with `>`, yet its slot 1 is not empty; the slots of the head stage, which
`main` clears, are. -/
theorem C7_stale_slot_in_later_stage :
    tokens "ls -l | sort".toList = ["ls".toList, "-l".toList, ['|'], "sort".toList] ∧
    slot_out (stage_rest ["sort".toList].tail) = none ∧
    (parse_mem stale_heap [[]] "ls -l | sort".toList).map (fun c => c.redirects)
      = some [none, none, none] ∧
    (parse_mem stale_heap [[]] "ls -l | sort".toList).map
        (fun c => c.next.map (fun d => (d.name, d.redirects)))
      = some (some ("sort".toList, [none, some ['x'], none])) := by
  exact ⟨by decide, rfl, rfl, rfl⟩

theorem parse_loop_overlong (fresh : Nat → command_t) (fuel depth : Nat) (tail : List CStr)
    (olds pch rest : CStr) (command : command_t) (k : Nat)
    (hs : strtok olds = some (pch, rest)) (hl : TEMP_BUF_SIZE ≤ pch.length) :
    parse_loop fresh fuel depth tail olds command k = none := by
  cases fuel with
  | zero => simp [parse_loop]
  | succ n => simp only [parse_loop, hs, if_pos hl]

theorem strtok_replicate (n : Nat) (hn : 0 < n) :
    strtok (List.replicate n 'a') = some (List.replicate n 'a', []) := by
  obtain ⟨m, rfl⟩ : ∃ m, n = m + 1 := ⟨n - 1, by omega⟩
  have hall : ∀ x ∈ List.replicate m 'a', (!isSplitter x) = true := by
    intro x hx
    rw [List.eq_of_mem_replicate hx]
    decide
  rw [List.replicate_succ, strtok_cons_of_not_splitter _ _ (by decide),
    List.takeWhile_eq_self_iff.2 hall, List.dropWhile_eq_nil_iff.2 hall]
  rfl

theorem parse_command_overlong (fresh : Nat → command_t) (fuel depth : Nat)
    (tail : List CStr) (command : command_t) (n : Nat) (hn : TEMP_BUF_SIZE ≤ n) :
    parse_command fresh fuel depth tail ('x' :: ' ' :: List.replicate n 'a') command
      = none := by
  obtain ⟨m, rfl⟩ : ∃ m, n = m + 1 := ⟨n - 1, by unfold TEMP_BUF_SIZE at hn; omega⟩
  cases fuel with
  | zero => simp [parse_command]
  | succ f =>
    have e1 : trim_left ('x' :: ' ' :: List.replicate (m + 1) 'a')
        = 'x' :: ' ' :: List.replicate (m + 1) 'a' := by
      simp [trim_left, List.dropWhile_cons, isSplitter, TAB]
    have e2 : trim_right ('x' :: ' ' :: List.replicate (m + 1) 'a')
        = 'x' :: ' ' :: List.replicate (m + 1) 'a' := by
      have : 'x' :: ' ' :: List.replicate (m + 1) 'a'
          = ('x' :: ' ' :: List.replicate m 'a') ++ ['a'] := by
        rw [List.replicate_succ']
        rfl
      rw [this, trim_right_append_singleton, if_neg (by decide)]
    have e3 : strtok ('x' :: ' ' :: List.replicate (m + 1) 'a')
        = some (['x'], List.replicate (m + 1) 'a') := by
      rw [strtok_cons_of_not_splitter _ _ (by decide)]
      simp [List.takeWhile_cons, List.dropWhile_cons, isSplitter]
    simp only [parse_command, e1, e2, e3]
    exact parse_loop_overlong fresh f depth _ _ _ [] _ 0
      (strtok_replicate (m + 1) (by omega)) (by rw [List.length_replicate]; exact hn)

/-- C8 (counterexample): a line whose second token has 1024 characters does
not fit `temp_buf`: the `strcpy` runs past the buffer and the parse has no
defined result, with any amount of fuel and whatever the memory holds. -/
theorem C8_counterexample :
    parse_mem (fun _ => zero_command) [[]] ('x' :: ' ' :: List.replicate 1024 'a') = none ∧
    (∀ (fresh : Nat → command_t) (fuel depth : Nat) (tail : List CStr)
        (command : command_t),
      parse_command fresh fuel depth tail ('x' :: ' ' :: List.replicate 1024 'a') command
        = none) :=
  ⟨parse_command_overlong _ _ _ _ _ 1024 (Nat.le_refl _),
   fun fresh fuel depth tail command =>
     parse_command_overlong fresh fuel depth tail command 1024 (Nat.le_refl _)⟩

/-- C8 (amended): a call of `parse_command` (on any text, for the head stage
or a later one, whatever the memory beyond the text and the incoming
descriptor hold) completes when every token after the first has fewer than
1024 characters and the last token is not a bare `|`, given more fuel than
the text is long; and every call that completes fills its stage as follows.
With `k` the number
of ordinary argument tokens of the text (those after the first token and
before the first bare `|` that are not `&` or a redirection):
`arg_count = k + 2`, `args[0]` is the name, `args[1..k]` are the ordinary
arguments in source order, each stored whole unless it has more than two
characters and matching quotes at both ends, in which case it is stored
without them; `args[k+1]` is `NULL` and no earlier entry is; the vector is
never empty; and every token the call copied has fewer than 1024
characters. -/
theorem C8_argument_vector (fresh : Nat → command_t) (depth : Nat)
    (tail : List CStr) (buf : CStr) (command : command_t) :
    ((∀ t ∈ (tokens buf).tail, t.length < 1024) → (tokens buf).getLast? ≠ some ['|'] →
      ∀ fuel, buf.length + 1 < fuel →
      ∃ c, parse_command fresh fuel depth tail buf command = some c) ∧
    ∀ (fuel : Nat) (c : command_t),
    parse_command fresh fuel depth tail buf command = some c →
    c.name = (tokens buf).headD [] ∧
    c.arg_count = ((stage_rest (tokens buf).tail).filter is_ordinary).length + 2 ∧
    c.args = some c.name ::
        ((stage_rest (tokens buf).tail).filter is_ordinary).map (fun t =>
          some (if 2 < t.length ∧
                  ((t.head? = some DQUOTE ∧ t.getLast? = some DQUOTE) ∨
                   (t.head? = some SQUOTE ∧ t.getLast? = some SQUOTE))
                then t.dropLast.drop 1 else t))
          ++ [none] ∧
    c.args.length = c.arg_count ∧
    1 ≤ c.args.length ∧
    c.args.get? 0 = some (some c.name) ∧
    c.args.get? (((stage_rest (tokens buf).tail).filter is_ordinary).length + 1)
      = some none ∧
    (∀ i, i ≤ ((stage_rest (tokens buf).tail).filter is_ordinary).length →
      ∃ a, c.args.get? i = some (some a)) ∧
    (∀ t ∈ stage_rest (tokens buf).tail, t.length < 1024) := by
  refine ⟨fun hfit hlast fuel hfuel =>
    (parse_defined_aux fresh fuel).2 depth tail buf command hfuel hfit hlast, ?_⟩
  intro fuel c h
  obtain ⟨a1, a4, a5, a6⟩ := parse_command_fields fresh fuel depth tail buf command c h
  have e : c.args = some c.name ::
      ((stage_rest (tokens buf).tail).filter is_ordinary).map (fun t =>
        some (if 2 < t.length ∧
                ((t.head? = some DQUOTE ∧ t.getLast? = some DQUOTE) ∨
                 (t.head? = some SQUOTE ∧ t.getLast? = some SQUOTE))
              then t.dropLast.drop 1 else t))
        ++ [none] := by
    rw [a5]
    simp only [ord_args, List.map_map]
    rfl
  have hl : (ord_args (stage_rest (tokens buf).tail)).length
      = ((stage_rest (tokens buf).tail).filter is_ordinary).length := by
    simp [ord_args]
  refine ⟨a1, by rw [a4, hl], e, ?_, ?_, ?_, ?_, ?_, a6⟩
  · rw [a4, e, hl]; simp
  · rw [e]; simp
  · rw [e]; rfl
  · rw [e]
    simp only [List.cons_append, List.get?_cons_succ]
    rw [List.get?_eq_getElem?, List.getElem?_append_right (by simp)]
    simp
  · intro i hi
    rw [e]
    cases i with
    | zero => exact ⟨_, rfl⟩
    | succ j =>
      simp only [List.cons_append, List.get?_cons_succ]
      rw [List.get?_eq_getElem?, List.getElem?_append_left (by simp; omega),
        List.getElem?_map]
      have hj : j < ((stage_rest (tokens buf).tail).filter is_ordinary).length := by omega
      rw [List.getElem?_eq_getElem hj]
      exact ⟨_, rfl⟩

theorem C8_argument_vector_witness :
    (∃ c, parse_command stale_heap 32 1 [] sample_line (stale_heap 0) = some c) ∧
    parse_command stale_heap 32 1 [] sample_line (stale_heap 0) = some sample_stage ∧
    sample_stage.name = (tokens sample_line).headD [] ∧
    sample_stage.arg_count = ((stage_rest (tokens sample_line).tail).filter is_ordinary).length + 2 ∧
    sample_stage.args = some sample_stage.name ::
        ((stage_rest (tokens sample_line).tail).filter is_ordinary).map (fun t =>
          some (if 2 < t.length ∧
                  ((t.head? = some DQUOTE ∧ t.getLast? = some DQUOTE) ∨
                   (t.head? = some SQUOTE ∧ t.getLast? = some SQUOTE))
                then t.dropLast.drop 1 else t))
          ++ [none] ∧
    sample_stage.args.length = sample_stage.arg_count ∧
    1 ≤ sample_stage.args.length ∧
    sample_stage.args.get? 0 = some (some sample_stage.name) ∧
    sample_stage.args.get? (((stage_rest (tokens sample_line).tail).filter is_ordinary).length + 1)
      = some none ∧
    (∀ i, i ≤ ((stage_rest (tokens sample_line).tail).filter is_ordinary).length →
      ∃ a, sample_stage.args.get? i = some (some a)) ∧
    (∀ t ∈ stage_rest (tokens sample_line).tail, t.length < 1024) :=
  ⟨(C8_argument_vector stale_heap 1 [] sample_line (stale_heap 0)).1 (by decide) (by decide) 32
      (by decide),
   rfl,
   (C8_argument_vector stale_heap 1 [] sample_line (stale_heap 0)).2 32 sample_stage rfl⟩

/-- C9 (failing input): on the line `"ls"` the stored command name, and with
it `args[0]`, keeps both quotes, although the same token as an argument
(`echo "ls"`) is stored unwrapped as `ls`. -/
theorem C9_name_keeps_quotes :
    (parse [DQUOTE, 'l', 's', DQUOTE]).name = [DQUOTE, 'l', 's', DQUOTE] ∧
    (parse [DQUOTE, 'l', 's', DQUOTE]).args = [some [DQUOTE, 'l', 's', DQUOTE], none] ∧
    strip_quotes [DQUOTE, 'l', 's', DQUOTE] = ['l', 's'] ∧
    (parse ("echo ".toList ++ [DQUOTE, 'l', 's', DQUOTE])).args
        = [some "echo".toList, some ['l', 's'], none] := by
  decide

/-- C10 (counterexample): for the line `cd` the parser builds two entries,
so index 1 is below `arg_count`, and the entry there is the `NULL` marker. -/
theorem C10_counterexample :
    (parse "cd".toList).arg_count = 2 ∧
    ¬ ((parse "cd".toList).arg_count ≤ 1) ∧
    (parse "cd".toList).args.length = 2 ∧
    (parse "cd".toList).args.get? 1 = some none := by
  decide

/-- C10 (amended): for the line `cd` the cd branch reads `args[1]`, which is
inside the vector (`arg_count = 2`) and holds the `NULL` end marker, so
`chdir` is called with `NULL` and `SUCCESS` is returned; in every
stage a completed call of `parse_command` fills, index 1 is below
`arg_count`, the length of the vector. -/
theorem C10_cd_reads_end_marker (K : Kernel) (t : FdTable) :
    process_command K t (parse "cd".toList)
      = some ([Event.chdir none], return_codes.SUCCESS) ∧
    (parse "cd".toList).args.get? 1 = some none ∧
    (∀ (fresh : Nat → command_t) (fuel depth : Nat) (tail : List CStr) (buf : CStr)
        (command c : command_t),
      parse_command fresh fuel depth tail buf command = some c →
      1 < c.arg_count ∧ c.args.length = c.arg_count) := by
  refine ⟨rfl, by decide, ?_⟩
  intro fresh fuel depth tail buf command c h
  obtain ⟨_, a4, a5, _⟩ := parse_command_fields fresh fuel depth tail buf command c h
  rw [a4, a5]
  refine ⟨by omega, ?_⟩
  simp

theorem fd_lookup_assign (t : FdTable) (fd : Nat) (r : Option Res) (x : Nat) :
    fd_lookup (fd_assign t fd r) x = if x = fd then r else fd_lookup t x := by
  unfold fd_lookup fd_assign
  rw [List.get?_eq_getElem?, List.get?_eq_getElem?, List.getElem?_set]
  have hlen : fd < (t ++ List.replicate (fd + 1 - t.length) none).length := by
    simp; omega
  by_cases h : x = fd
  · subst h
    have h3 : x < t.length + (x + 1 - t.length) := by omega
    simp [h3]
  · have h2 : ¬ fd = x := fun e => h e.symm
    rw [if_neg h2, if_neg h]
    by_cases hx : x < t.length
    · rw [List.getElem?_append_left hx]
    · have hx2 : t.length ≤ x := by omega
      rw [List.getElem?_append_right hx2, List.getElem?_eq_none hx2]
      by_cases hx3 : x - t.length < fd + 1 - t.length
      · rw [List.getElem?_replicate, if_pos hx3]
        rfl
      · rw [List.getElem?_replicate, if_neg hx3]

theorem fd_lookup_lowest_free (t : FdTable) : fd_lookup t (lowest_free t) = none := by
  induction t with
  | nil => rfl
  | cons a as ih =>
    cases a with
    | none => rfl
    | some r =>
      unfold fd_lookup at ih ⊢
      simpa [lowest_free] using ih

theorem lowest_free_ne (t : FdTable) (x : Nat) (h : fd_lookup t x ≠ none) :
    lowest_free t ≠ x := by
  intro e
  rw [← e] at h
  exact h (fd_lookup_lowest_free t)

theorem sys_pipe_spec (t : FdTable) (i : Nat) :
    fd_lookup t (sys_pipe t i).2.1 = none ∧
    fd_lookup t (sys_pipe t i).2.2 = none ∧
    (sys_pipe t i).2.1 ≠ (sys_pipe t i).2.2 ∧
    (∀ x, fd_lookup (sys_pipe t i).1 x =
      if x = (sys_pipe t i).2.2 then some (Res.pipe_write i)
      else if x = (sys_pipe t i).2.1 then some (Res.pipe_read i)
      else fd_lookup t x) := by
  have hr := fd_lookup_lowest_free t
  have hw := fd_lookup_lowest_free (fd_assign t (lowest_free t) (some (Res.pipe_read i)))
  have hne : lowest_free t ≠
      lowest_free (fd_assign t (lowest_free t) (some (Res.pipe_read i))) := by
    intro e
    rw [fd_lookup_assign, ← e] at hw
    simp at hw
  refine ⟨hr, ?_, hne, ?_⟩
  · rw [fd_lookup_assign, if_neg (fun e => hne e.symm)] at hw
    exact hw
  · intro x
    simp only [sys_pipe]
    rw [fd_lookup_assign, fd_lookup_assign]

theorem redirect_stream_some (K : Kernel) (t : FdTable) (path : CStr) (mode : OpenMode)
    (target : Nat) (hopen : K.open_ok path = true) (ht : fd_lookup t target ≠ none) :
    ∃ t1, redirect_stream K t (some path) mode target = some t1 ∧
      ∀ x, fd_lookup t1 x =
        if x = target then some (Res.file path mode) else fd_lookup t x := by
  have hfd : lowest_free t ≠ target := lowest_free_ne t target ht
  refine ⟨sys_close (sys_dup2 (fd_assign t (lowest_free t) (some (Res.file path mode)))
      (lowest_free t) target) (lowest_free t),
    by simp only [redirect_stream, hopen, if_true, sys_open], ?_⟩
  intro x
  have h1 : fd_lookup (fd_assign t (lowest_free t) (some (Res.file path mode)))
      (lowest_free t) = some (Res.file path mode) := by
    rw [fd_lookup_assign, if_pos rfl]
  simp only [sys_close, sys_dup2, h1]
  rw [fd_lookup_assign, fd_lookup_assign, fd_lookup_assign]
  by_cases hx : x = lowest_free t
  · subst hx
    rw [if_pos rfl, if_neg hfd]
    exact (fd_lookup_lowest_free t).symm
  · rw [if_neg hx, if_neg hx]

theorem pipes_inv_step (t0 t : FdTable) (ps : List (Nat × Nat))
    (h : pipes_inv t0 t ps) :
    pipes_inv t0 (sys_pipe t ps.length).1
      (ps ++ [((sys_pipe t ps.length).2.1, (sys_pipe t ps.length).2.2)]) := by
  obtain ⟨hr, hw, hne, hl⟩ := sys_pipe_spec t ps.length
  obtain ⟨h1, h2⟩ := h
  have hfree : ∀ x, fd_lookup t x ≠ none →
      fd_lookup (sys_pipe t ps.length).1 x = fd_lookup t x := by
    intro x hx
    have a : x ≠ (sys_pipe t ps.length).2.2 := fun e => hx (e ▸ hw)
    have b : x ≠ (sys_pipe t ps.length).2.1 := fun e => hx (e ▸ hr)
    rw [hl, if_neg a, if_neg b]
  have hclosed : ∀ x, fd_lookup t x = none → fd_lookup t0 x = none := by
    intro x hx
    by_contra hc
    exact hc ((h1 x hc).symm.trans hx)
  refine ⟨?_, ?_⟩
  · intro x hx
    have : fd_lookup t x ≠ none := by rw [h1 x hx]; exact hx
    rw [hfree x this, h1 x hx]
  · intro j r w hj
    rw [List.get?_eq_getElem?] at hj
    by_cases hlt : j < ps.length
    · rw [List.getElem?_append_left hlt] at hj
      obtain ⟨a, b, c, d⟩ := h2 j r w (by rw [List.get?_eq_getElem?]; exact hj)
      refine ⟨?_, ?_, c, d⟩
      · rw [hfree r (by rw [a]; simp), a]
      · rw [hfree w (by rw [b]; simp), b]
    · have hge : ps.length ≤ j := by omega
      rw [List.getElem?_append_right hge] at hj
      have hj0 : j - ps.length = 0 := by
        by_contra hne0
        have : 1 ≤ j - ps.length := by omega
        rw [List.getElem?_eq_none (by simpa using this)] at hj
        simp at hj
      have hj1 : j = ps.length := by omega
      rw [hj0] at hj
      simp only [List.getElem?_cons_zero, Option.some.injEq, Prod.mk.injEq] at hj
      obtain ⟨e1, e2⟩ := hj
      subst hj1
      rw [← e1, ← e2]
      refine ⟨?_, ?_, hclosed _ hr, hclosed _ hw⟩
      · rw [hl, if_neg hne, if_pos rfl]
      · rw [hl, if_pos rfl]

theorem make_pipes_ok (K : Kernel) (t0 : FdTable) (hpipe : ∀ i, K.pipe_ok i = true)
    (n : Nat) : ∀ (t : FdTable) (ps : List (Nat × Nat)) (tr : List Event),
      ps.length + n ≤ PIPES_CAPACITY → pipes_inv t0 t ps →
      ∃ t1 qs, qs.length = n ∧
        make_pipes K n t ps tr
          = pipes_result.ok t1 (ps ++ qs) (tr ++ qs.map (fun p => Event.pipe p.1 p.2)) ∧
        pipes_inv t0 t1 (ps ++ qs) := by
  induction n with
  | zero =>
    intro t ps tr _ hinv
    exact ⟨t, [], rfl, by simp [make_pipes], by simpa using hinv⟩
  | succ n ih =>
    intro t ps tr hcap hinv
    have hc : ¬ PIPES_CAPACITY ≤ ps.length := by omega
    obtain ⟨t1, qs, hq, hm, hi⟩ := ih (sys_pipe t ps.length).1
      (ps ++ [((sys_pipe t ps.length).2.1, (sys_pipe t ps.length).2.2)])
      (tr ++ [Event.pipe (sys_pipe t ps.length).2.1 (sys_pipe t ps.length).2.2])
      (by simp; omega) (pipes_inv_step t0 t ps hinv)
    refine ⟨t1, ((sys_pipe t ps.length).2.1, (sys_pipe t ps.length).2.2) :: qs,
      by simp [hq], ?_, ?_⟩
    · rw [make_pipes, if_neg hc, if_pos (hpipe _)]
      simp only []
      rw [hm]
      simp
    · simpa using hi

theorem make_pipes_out_of_bounds (K : Kernel) (hpipe : ∀ i, K.pipe_ok i = true)
    (n : Nat) : ∀ (t : FdTable) (ps : List (Nat × Nat)) (tr : List Event),
      ps.length ≤ PIPES_CAPACITY → PIPES_CAPACITY < ps.length + n →
      make_pipes K n t ps tr = pipes_result.out_of_bounds := by
  induction n with
  | zero =>
    intro t ps tr h1 h2
    omega
  | succ n ih =>
    intro t ps tr h1 h2
    rw [make_pipes]
    by_cases hc : PIPES_CAPACITY ≤ ps.length
    · rw [if_pos hc]
    · rw [if_neg hc, if_pos (hpipe _)]
      simp only []
      apply ih
      · simp; omega
      · simp; omega

theorem redirect_stream_spec (K : Kernel) (t : FdTable) (slot : Option CStr)
    (mode : OpenMode) (target : Nat) (hopen : ∀ path, K.open_ok path = true)
    (ht : fd_lookup t target ≠ none) :
    ∃ t1, redirect_stream K t slot mode target = some t1 ∧
      ∀ x, fd_lookup t1 x =
        if x = target then
          (match slot with
            | some path => some (Res.file path mode)
            | none => fd_lookup t target)
        else fd_lookup t x := by
  cases slot with
  | none =>
    refine ⟨t, rfl, ?_⟩
    intro x
    by_cases hx : x = target
    · rw [if_pos hx, hx]
    · rw [if_neg hx]
  | some path =>
    exact redirect_stream_some K t path mode target (hopen path) ht

theorem exec_single_spec (K : Kernel) (t : FdTable) (c : command_t)
    (hopen : ∀ path, K.open_ok path = true)
    (h0 : fd_lookup t 0 ≠ none) (h1 : fd_lookup t 1 ≠ none) :
    ∃ img, exec_single K t c = some img ∧
      fd_lookup img.fds 0 =
        (match c.redirects.getD 0 none with
          | some path => some (Res.file path OpenMode.rdonly)
          | none => fd_lookup t 0) ∧
      fd_lookup img.fds 1 =
        (match c.redirects.getD 2 none with
          | some path => some (Res.file path OpenMode.append)
          | none =>
            match c.redirects.getD 1 none with
            | some path => some (Res.file path OpenMode.trunc)
            | none => fd_lookup t 1) ∧
      (∀ x, x ≠ 0 → x ≠ 1 → fd_lookup img.fds x = fd_lookup t x) := by
  obtain ⟨ta, ea, la⟩ := redirect_stream_spec K t (c.redirects.getD 0 none)
    OpenMode.rdonly 0 hopen h0
  have h1a : fd_lookup ta 1 ≠ none := by
    rw [la 1, if_neg (by decide)]; exact h1
  obtain ⟨tb, eb, lb⟩ := redirect_stream_spec K ta (c.redirects.getD 1 none)
    OpenMode.trunc 1 hopen h1a
  have h1b : fd_lookup tb 1 ≠ none := by
    rw [lb 1, if_pos rfl]
    cases c.redirects.getD 1 none with
    | none => exact h1a
    | some path => simp
  obtain ⟨tc, ec, lc⟩ := redirect_stream_spec K tb (c.redirects.getD 2 none)
    OpenMode.append 1 hopen h1b
  refine ⟨{ fds := tc,
             dispatch :=
               if c.name = "chatroom".toList then Dispatch.chatroom
               else if c.name = "cut".toList then Dispatch.cut
               else Dispatch.path_search },
    by simp only [exec_single, ea, eb, ec], ?_, ?_, ?_⟩
  · show fd_lookup tc 0 = _
    rw [lc 0, if_neg (by decide), lb 0, if_neg (by decide), la 0, if_pos rfl]
  · show fd_lookup tc 1 = _
    rw [lc 1, if_pos rfl]
    cases c.redirects.getD 2 none with
    | some path => rfl
    | none =>
      simp only []
      rw [lb 1, if_pos rfl]
      cases c.redirects.getD 1 none with
      | some path => rfl
      | none =>
        simp only []
        rw [la 1, if_neg (by decide)]
  · intro x hx0 hx1
    show fd_lookup tc x = _
    rw [lc x, if_neg hx1, lb x, if_neg hx1, la x, if_neg hx0]

theorem close_fold_keeps_none (ps : List (Nat × Nat)) :
    ∀ (t : FdTable) (x : Nat), fd_lookup t x = none →
      fd_lookup (ps.foldl (fun t p => sys_close (sys_close t p.1) p.2) t) x = none := by
  induction ps with
  | nil => intro t x h; exact h
  | cons p ps ih =>
    intro t x h
    rw [List.foldl_cons]
    apply ih
    simp only [sys_close]
    rw [fd_lookup_assign, fd_lookup_assign]
    split_ifs <;> first | rfl | exact h

theorem close_fold_closes (ps : List (Nat × Nat)) :
    ∀ (t : FdTable) (p : Nat × Nat), p ∈ ps →
      fd_lookup (ps.foldl (fun t p => sys_close (sys_close t p.1) p.2) t) p.1 = none ∧
      fd_lookup (ps.foldl (fun t p => sys_close (sys_close t p.1) p.2) t) p.2 = none := by
  induction ps with
  | nil => intro t p h; simp at h
  | cons q ps ih =>
    intro t p h
    rw [List.foldl_cons]
    rcases List.mem_cons.1 h with rfl | h
    · refine ⟨?_, ?_⟩
      · apply close_fold_keeps_none
        simp only [sys_close]
        rw [fd_lookup_assign, fd_lookup_assign, if_pos rfl]
        split_ifs <;> rfl
      · apply close_fold_keeps_none
        simp only [sys_close]
        rw [fd_lookup_assign, if_pos rfl]
    · exact ih _ p h

theorem close_fold_other (ps : List (Nat × Nat)) :
    ∀ (t : FdTable) (x : Nat), (∀ p ∈ ps, x ≠ p.1 ∧ x ≠ p.2) →
      fd_lookup (ps.foldl (fun t p => sys_close (sys_close t p.1) p.2) t) x
        = fd_lookup t x := by
  induction ps with
  | nil => intro t x _; rfl
  | cons q ps ih =>
    intro t x h
    rw [List.foldl_cons, ih _ x (fun p hp => h p (List.mem_cons_of_mem q hp))]
    obtain ⟨a, b⟩ := h q (List.mem_cons_self q ps)
    simp only [sys_close]
    rw [fd_lookup_assign, fd_lookup_assign, if_neg b, if_neg a]

theorem sys_dup2_of_open (t : FdTable) (o n : Nat) (r : Res)
    (h : fd_lookup t o = some r) : sys_dup2 t o n = fd_assign t n (some r) := by
  simp only [sys_dup2, h]

theorem pipes_inv_mem (t0 t : FdTable) (ps : List (Nat × Nat)) (h : pipes_inv t0 t ps)
    (p : Nat × Nat) (hp : p ∈ ps) :
    fd_lookup t0 p.1 = none ∧ fd_lookup t0 p.2 = none := by
  obtain ⟨j, hj⟩ := List.get?_of_mem hp
  obtain ⟨_, _, c, d⟩ := h.2 j p.1 p.2 hj
  exact ⟨c, d⟩

theorem child_setup_spec (t0 t1 : FdTable) (ps : List (Nat × Nat)) (L i : Nat)
    (hinv : pipes_inv t0 t1 ps) (hlen : ps.length = L - 1) (hi : i < L)
    (h0 : fd_lookup t0 0 ≠ none) (h1 : fd_lookup t0 1 ≠ none) :
    fd_lookup (child_setup t1 ps i L) 0
      = (if 0 < i then some (Res.pipe_read (i - 1)) else fd_lookup t0 0) ∧
    fd_lookup (child_setup t1 ps i L) 1
      = (if i < L - 1 then some (Res.pipe_write i) else fd_lookup t0 1) ∧
    (∀ p ∈ ps, fd_lookup (child_setup t1 ps i L) p.1 = none ∧
      fd_lookup (child_setup t1 ps i L) p.2 = none) := by
  have hne : ∀ p ∈ ps, (0 ≠ p.1 ∧ 0 ≠ p.2) ∧ (1 ≠ p.1 ∧ 1 ≠ p.2) := by
    intro p hp
    obtain ⟨a, b⟩ := pipes_inv_mem t0 t1 ps hinv p hp
    refine ⟨⟨?_, ?_⟩, ⟨?_, ?_⟩⟩
    · intro e; rw [← e] at a; exact h0 a
    · intro e; rw [← e] at b; exact h0 b
    · intro e; rw [← e] at a; exact h1 a
    · intro e; rw [← e] at b; exact h1 b
  have hget : ∀ j, j < ps.length → ps.get? j = some (ps.getD j (0, 0)) := by
    intro j hj
    rw [List.get?_eq_getElem?, List.getD_eq_getElem?_getD, List.getElem?_eq_getElem hj]
    rfl
  -- the table after the first `dup2`
  have hA : ∀ x, fd_lookup
      (if 0 < i then sys_dup2 t1 (ps.getD (i - 1) (0, 0)).1 0 else t1) x
      = if x = 0 then (if 0 < i then some (Res.pipe_read (i - 1)) else fd_lookup t0 0)
        else fd_lookup t1 x := by
    intro x
    by_cases hpos : 0 < i
    · have hj : i - 1 < ps.length := by omega
      have a : fd_lookup t1 (ps.getD (i - 1) (0, 0)).1 = some (Res.pipe_read (i - 1)) :=
        (hinv.2 (i - 1) _ _ (hget _ hj)).1
      rw [if_pos hpos, if_pos hpos, sys_dup2_of_open _ _ _ _ a, fd_lookup_assign]
    · rw [if_neg hpos, if_neg hpos]
      by_cases hx : x = 0
      · rw [if_pos hx, hx, hinv.1 0 h0]
      · rw [if_neg hx]
  -- the table after the second `dup2`
  have hB : ∀ x, fd_lookup
      (if i < L - 1 then
        sys_dup2 (if 0 < i then sys_dup2 t1 (ps.getD (i - 1) (0, 0)).1 0 else t1)
          (ps.getD i (0, 0)).2 1
       else (if 0 < i then sys_dup2 t1 (ps.getD (i - 1) (0, 0)).1 0 else t1)) x
      = if x = 1 then (if i < L - 1 then some (Res.pipe_write i) else fd_lookup t0 1)
        else if x = 0 then (if 0 < i then some (Res.pipe_read (i - 1)) else fd_lookup t0 0)
        else fd_lookup t1 x := by
    intro x
    by_cases hlt : i < L - 1
    · have hj : i < ps.length := by omega
      have b : fd_lookup t1 (ps.getD i (0, 0)).2 = some (Res.pipe_write i) :=
        (hinv.2 i _ _ (hget _ hj)).2.1
      have hmem : ps.getD i (0, 0) ∈ ps := List.get?_mem (hget _ hj)
      have hw0 : (ps.getD i (0, 0)).2 ≠ 0 := fun e => (hne _ hmem).1.2 e.symm
      have hsrc : fd_lookup (if 0 < i then sys_dup2 t1 (ps.getD (i - 1) (0, 0)).1 0 else t1)
          (ps.getD i (0, 0)).2 = some (Res.pipe_write i) := by
        rw [hA, if_neg hw0, b]
      rw [if_pos hlt, if_pos hlt, sys_dup2_of_open _ _ _ _ hsrc, fd_lookup_assign, hA]
    · rw [if_neg hlt, if_neg hlt, hA]
      by_cases hx : x = 1
      · rw [if_pos hx, hx, if_neg (by decide), hinv.1 1 h1]
      · rw [if_neg hx]
  unfold child_setup
  simp only []
  refine ⟨?_, ?_, ?_⟩
  · rw [close_fold_other ps _ 0 (fun p hp => (hne p hp).1), hB, if_neg (by decide), if_pos rfl]
  · rw [close_fold_other ps _ 1 (fun p hp => (hne p hp).2), hB, if_pos rfl]
  · intro p hp
    exact close_fold_closes ps _ p hp

theorem fork_all_eq (K : Kernel) (t : FdTable) (ps : List (Nat × Nat)) (count : Nat)
    (cs : List command_t) : ∀ i0,
    fork_all K t ps count i0 cs =
      (cs.enumFrom i0).map (fun ic =>
        Event.fork ic.1 (K.pid ic.1) (exec_single K (child_setup t ps ic.1 count) ic.2)) := by
  induction cs with
  | nil => intro i0; rfl
  | cons c cs ih =>
    intro i0
    rw [fork_all, ih (i0 + 1)]
    rfl

theorem chain_length_pos (c : command_t) : 1 ≤ (chain c).length := by
  rw [chain_eq]; simp

theorem chain_next_none (c : command_t) (h : c.next = none) : chain c = [c] := by
  rw [chain_eq, h]

theorem chain_next_some (c d : command_t) (h : c.next = some d) :
    chain c = c :: chain d := by
  rw [chain_eq, h]

theorem fork_all_get (K : Kernel) (t : FdTable) (ps : List (Nat × Nat)) (count : Nat)
    (cs : List command_t) : ∀ (i0 j : Nat) (c : command_t), cs.get? j = some c →
      (fork_all K t ps count i0 cs).get? j =
        some (Event.fork (i0 + j) (K.pid (i0 + j))
          (exec_single K (child_setup t ps (i0 + j) count) c)) := by
  induction cs with
  | nil => intro i0 j c h; simp at h
  | cons d ds ih =>
    intro i0 j c h
    cases j with
    | zero =>
      simp only [List.get?_cons_zero, Option.some.injEq] at h
      subst h
      rfl
    | succ j =>
      simp only [List.get?_cons_succ] at h
      rw [fork_all, List.get?_cons_succ, ih (i0 + 1) j c h]
      have e : i0 + 1 + j = i0 + (j + 1) := by omega
      rw [e]

theorem fork_all_length (K : Kernel) (t : FdTable) (ps : List (Nat × Nat)) (count : Nat)
    (cs : List command_t) : ∀ i0, (fork_all K t ps count i0 cs).length = cs.length := by
  induction cs with
  | nil => intro i0; rfl
  | cons d ds ih => intro i0; simp [fork_all, ih]

theorem process_command_pipeline (K : Kernel) (t : FdTable) (command : command_t)
    (hn1 : command.name ≠ []) (hn2 : command.name ≠ "exit".toList)
    (hn3 : command.name ≠ "cd".toList)
    (h2 : 2 ≤ (chain command).length) (h17 : (chain command).length ≤ 17)
    (hpipe : ∀ i, K.pipe_ok i = true) :
    ∃ t1 pipes, pipes.length = (chain command).length - 1 ∧ pipes_inv t t1 pipes ∧
      process_command K t command =
        some (pipes.map (fun p => Event.pipe p.1 p.2)
                ++ fork_all K t1 pipes (chain command).length 0 (chain command)
                ++ close_all pipes
                ++ List.replicate (chain command).length Event.wait,
              return_codes.SUCCESS) := by
  cases hnx : command.next with
  | none =>
    rw [chain_next_none command hnx] at h2
    simp at h2
  | some d =>
    have hinv0 : pipes_inv t t [] := ⟨fun _ _ => rfl, fun j r w h => by simp at h⟩
    obtain ⟨t1, qs, hq, hm, hi⟩ := make_pipes_ok K t hpipe ((chain command).length - 1)
      t [] [] (by unfold PIPES_CAPACITY; simp; omega) hinv0
    simp only [List.nil_append] at hm hi
    refine ⟨t1, qs, hq, hi, ?_⟩
    have hcd : ¬ (command.name = "cd".toList ∧ 0 < command.arg_count) := fun h => hn3 h.1
    simp only [process_command, if_neg hn1, if_neg hn2, if_neg hcd, hnx, hm]

/-- C3 (counterexample): a pipeline of 18 stages makes the pipe loop write
`pipes[16]`, outside `int pipes[16][2]`; the run has no defined result. -/
theorem C3_counterexample :
    (chain (parse
      "a | a | a | a | a | a | a | a | a | a | a | a | a | a | a | a | a | a".toList)).length
        = 18 ∧
    process_command std_kernel std_fds
      (parse "a | a | a | a | a | a | a | a | a | a | a | a | a | a | a | a | a | a".toList)
        = none := by
  exact ⟨by decide, rfl⟩

/-- C3 (amended): for a chain of `L` stages with `L ≤ 17`, head neither the
empty name, `exit` nor `cd`, not in the background, and every `pipe` call
succeeding, `process_command` makes exactly `L - 1` pipes, then forks one
child per stage in chain order, then closes both ends of every pipe, then
waits `L` times, and returns `SUCCESS`. -/
theorem C3_pipeline_calls (K : Kernel) (t : FdTable) (command : command_t) (L : Nat)
    (hL : (chain command).length = L) (h17 : L ≤ 17)
    (hn1 : command.name ≠ []) (hn2 : command.name ≠ "exit".toList)
    (hn3 : command.name ≠ "cd".toList)
    (hbg : command.background = false)
    (hpipe : ∀ i, K.pipe_ok i = true) :
    ∃ (t1 : FdTable) (pipes : List (Nat × Nat)), pipes.length = L - 1 ∧
      process_command K t command =
        some (pipes.map (fun p => Event.pipe p.1 p.2)
                ++ (chain command).enum.map (fun ic =>
                      Event.fork ic.1 (K.pid ic.1)
                        (exec_single K (child_setup t1 pipes ic.1 L) ic.2))
                ++ pipes.flatMap (fun p => [Event.close p.1, Event.close p.2])
                ++ List.replicate L Event.wait,
              return_codes.SUCCESS) := by
  subst hL
  by_cases h2 : 2 ≤ (chain command).length
  · obtain ⟨t1, pipes, hlen, _, hpc⟩ :=
      process_command_pipeline K t command hn1 hn2 hn3 h2 h17 hpipe
    refine ⟨t1, pipes, hlen, ?_⟩
    rw [hpc, fork_all_eq]
    rfl
  · have hnx : command.next = none := by
      cases hnx : command.next with
      | none => rfl
      | some d =>
        exfalso
        apply h2
        rw [chain_next_some command d hnx]
        have := chain_length_pos d
        simp only [List.length_cons]
        omega
    have hcd : ¬ (command.name = "cd".toList ∧ 0 < command.arg_count) := fun h => hn3 h.1
    refine ⟨t, [], by rw [chain_next_none command hnx]; rfl, ?_⟩
    simp only [process_command, if_neg hn1, if_neg hn2, if_neg hcd, hnx, hbg]
    rw [chain_next_none command hnx]
    rfl

theorem C3_pipeline_calls_witness :
    ∃ (t1 : FdTable) (pipes : List (Nat × Nat)), pipes.length = 2 - 1 ∧
      process_command std_kernel std_fds (parse "ls | wc".toList) =
        some (pipes.map (fun p => Event.pipe p.1 p.2)
                ++ (chain (parse "ls | wc".toList)).enum.map (fun ic =>
                      Event.fork ic.1 (std_kernel.pid ic.1)
                        (exec_single std_kernel (child_setup t1 pipes ic.1 2) ic.2))
                ++ pipes.flatMap (fun p => [Event.close p.1, Event.close p.2])
                ++ List.replicate 2 Event.wait,
              return_codes.SUCCESS) :=
  C3_pipeline_calls std_kernel std_fds (parse "ls | wc".toList) 2 (by decide) (by decide)
    (by decide) (by decide) (by decide) (by decide) (fun _ => rfl)

/-- C4 (failing input): the line `sleep 5 | cat &` sets the background flag
on the head of a two-stage chain, yet `process_command` forks the two stages,
waits twice and reports no process identifier; the single command
`sleep 5 &` is forked, not waited for, and its identifier is reported. -/
theorem C4_background_pipeline_waits :
    (parse "sleep 5 | cat &".toList).background = true ∧
    (chain (parse "sleep 5 | cat &".toList)).length = 2 ∧
    (process_command std_kernel std_fds (parse "sleep 5 | cat &".toList)).map
        (fun r => (count_forks r.1, count_waits r.1, reported_bg r.1, r.2))
      = some (2, 2, [], return_codes.SUCCESS) ∧
    (process_command std_kernel std_fds (parse "sleep 5 &".toList)).map
        (fun r => (count_forks r.1, count_waits r.1, reported_bg r.1, r.2))
      = some (1, 0, [100], return_codes.SUCCESS) := by
  decide

/-- C5 (counterexample): with 18 stages the run writes outside `pipes` and
has no defined result; and in a shell whose descriptor 1 is closed, `pipe`
returns 1 as the read end, so on `a | b` the first child, after `dup2` onto
descriptor 1, closes it again and is dispatched with descriptor 1 closed
instead of writing to pipe 0. -/
theorem C5_counterexample :
    process_command std_kernel std_fds
      (parse "c | c | c | c | c | c | c | c | c | c | c | c | c | c | c | c | c | c".toList)
        = none ∧
    (process_command std_kernel [some (Res.inherited 0), none, some (Res.inherited 2)]
        (parse "a | b".toList)).map (fun r => fork_streams r.1)
      = some [some (some (Res.inherited 0), none), some (some (Res.pipe_read 0), none)] := by
  exact ⟨rfl, by decide⟩

/-- C5 (amended): for a pipeline of `L` stages, `2 ≤ L ≤ 17`, run by a shell
whose descriptors 0 and 1 are open, with every `pipe` and `open` succeeding:
the child of stage `i` is dispatched with descriptor 0 on the input file if
slot 0 is set, else on the read end of pipe `i - 1` if `i > 0`, else on the
shell's descriptor 0; with descriptor 1 on the append file if slot 2 is set,
else the truncate file if slot 1 is set, else the write end of pipe `i` if
`i < L - 1`, else the shell's descriptor 1; and with every descriptor that a
`pipe` call returned closed. -/
theorem C5_child_streams (K : Kernel) (t : FdTable) (command : command_t) (L : Nat)
    (hL : (chain command).length = L) (h2 : 2 ≤ L) (h17 : L ≤ 17)
    (hn1 : command.name ≠ []) (hn2 : command.name ≠ "exit".toList)
    (hn3 : command.name ≠ "cd".toList)
    (hpipe : ∀ i, K.pipe_ok i = true) (hopen : ∀ path, K.open_ok path = true)
    (h0 : fd_lookup t 0 ≠ none) (h1 : fd_lookup t 1 ≠ none) :
    ∃ (pipes : List (Nat × Nat)) (forks : List Event),
      pipes.length = L - 1 ∧ forks.length = L ∧
      process_command K t command =
        some (pipes.map (fun p => Event.pipe p.1 p.2) ++ forks
                ++ pipes.flatMap (fun p => [Event.close p.1, Event.close p.2])
                ++ List.replicate L Event.wait,
              return_codes.SUCCESS) ∧
      ∀ (i : Nat) (c : command_t), (chain command).get? i = some c →
        ∃ img : child_image,
          forks.get? i = some (Event.fork i (K.pid i) (some img)) ∧
          fd_lookup img.fds 0 =
            (match c.redirects.getD 0 none with
              | some path => some (Res.file path OpenMode.rdonly)
              | none => if 0 < i then some (Res.pipe_read (i - 1)) else fd_lookup t 0) ∧
          fd_lookup img.fds 1 =
            (match c.redirects.getD 2 none with
              | some path => some (Res.file path OpenMode.append)
              | none =>
                match c.redirects.getD 1 none with
                | some path => some (Res.file path OpenMode.trunc)
                | none => if i < L - 1 then some (Res.pipe_write i) else fd_lookup t 1) ∧
          (∀ p ∈ pipes, fd_lookup img.fds p.1 = none ∧ fd_lookup img.fds p.2 = none) := by
  subst hL
  obtain ⟨t1, pipes, hlen, hinv, hpc⟩ :=
    process_command_pipeline K t command hn1 hn2 hn3 h2 h17 hpipe
  refine ⟨pipes, fork_all K t1 pipes (chain command).length 0 (chain command), hlen,
    fork_all_length _ _ _ _ _ _, hpc, ?_⟩
  intro i c hc
  have hi : i < (chain command).length := by
    rw [List.get?_eq_getElem?] at hc
    exact (List.getElem?_eq_some_iff.1 hc).1
  obtain ⟨s0, s1, sp⟩ := child_setup_spec t t1 pipes (chain command).length i hinv hlen hi h0 h1
  have g0 : fd_lookup (child_setup t1 pipes i (chain command).length) 0 ≠ none := by
    rw [s0]; split_ifs
    · simp
    · exact h0
  have g1 : fd_lookup (child_setup t1 pipes i (chain command).length) 1 ≠ none := by
    rw [s1]; split_ifs
    · simp
    · exact h1
  obtain ⟨img, e, l0, l1, lx⟩ := exec_single_spec K _ c hopen g0 g1
  refine ⟨img, ?_, ?_, ?_, ?_⟩
  · have := fork_all_get K t1 pipes (chain command).length (chain command) 0 i c hc
    rw [this, Nat.zero_add, e]
  · rw [l0, s0]
  · rw [l1, s1]
  · intro p hp
    obtain ⟨a, b⟩ := pipes_inv_mem t t1 pipes hinv p hp
    have n10 : p.1 ≠ 0 := fun e => h0 (e ▸ a)
    have n11 : p.1 ≠ 1 := fun e => h1 (e ▸ a)
    have n20 : p.2 ≠ 0 := fun e => h0 (e ▸ b)
    have n21 : p.2 ≠ 1 := fun e => h1 (e ▸ b)
    rw [lx _ n10 n11, lx _ n20 n21]
    exact sp p hp

theorem C5_child_streams_witness :
    ∃ (pipes : List (Nat × Nat)) (forks : List Event),
      pipes.length = 2 - 1 ∧ forks.length = 2 ∧
      process_command std_kernel std_fds (parse "echo hi | tr a-z A-Z >out.txt".toList) =
        some (pipes.map (fun p => Event.pipe p.1 p.2) ++ forks
                ++ pipes.flatMap (fun p => [Event.close p.1, Event.close p.2])
                ++ List.replicate 2 Event.wait,
              return_codes.SUCCESS) ∧
      ∀ (i : Nat) (c : command_t),
        (chain (parse "echo hi | tr a-z A-Z >out.txt".toList)).get? i = some c →
        ∃ img : child_image,
          forks.get? i = some (Event.fork i (std_kernel.pid i) (some img)) ∧
          fd_lookup img.fds 0 =
            (match c.redirects.getD 0 none with
              | some path => some (Res.file path OpenMode.rdonly)
              | none =>
                if 0 < i then some (Res.pipe_read (i - 1)) else fd_lookup std_fds 0) ∧
          fd_lookup img.fds 1 =
            (match c.redirects.getD 2 none with
              | some path => some (Res.file path OpenMode.append)
              | none =>
                match c.redirects.getD 1 none with
                | some path => some (Res.file path OpenMode.trunc)
                | none =>
                  if i < 2 - 1 then some (Res.pipe_write i) else fd_lookup std_fds 1) ∧
          (∀ p ∈ pipes, fd_lookup img.fds p.1 = none ∧ fd_lookup img.fds p.2 = none) :=
  C5_child_streams std_kernel std_fds (parse "echo hi | tr a-z A-Z >out.txt".toList) 2
    (by decide) (by decide) (by decide) (by decide) (by decide) (by decide)
    (fun _ => rfl) (fun _ => rfl) (by decide) (by decide)


theorem fgets_aux_line (n : Nat) : ∀ (text rest : CStr), NEWLINE ∉ text →
    fgets_aux n (text ++ NEWLINE :: rest) =
      if text.length < n then (text ++ [NEWLINE], rest)
      else (text.take n, text.drop n ++ NEWLINE :: rest) := by
  induction n with
  | zero =>
    intro text rest _
    cases text <;> simp [fgets_aux]
  | succ n ih =>
    intro text rest h
    cases text with
    | nil => simp [fgets_aux]
    | cons c cs =>
      have hc : c ≠ NEWLINE := fun e => h (e ▸ List.mem_cons_self c cs)
      have hcs : NEWLINE ∉ cs := fun m => h (List.mem_cons_of_mem c m)
      show fgets_aux (n + 1) (c :: (cs ++ NEWLINE :: rest)) = _
      rw [fgets_aux, if_neg hc, ih cs rest hcs, List.length_cons]
      by_cases hl : cs.length < n
      · have hl2 : cs.length + 1 < n + 1 := by omega
        rw [if_pos hl, if_pos hl2]
        rfl
      · have hl2 : ¬ cs.length + 1 < n + 1 := by omega
        rw [if_neg hl, if_neg hl2]
        rfl

theorem snprintf_of_le (size : Nat) (s : CStr) (h : s.length ≤ size - 1) :
    snprintf size s = s := by
  unfold snprintf
  exact List.take_of_length_le h

theorem snprintf_length_le (size : Nat) (s : CStr) : (snprintf size s).length ≤ size - 1 := by
  unfold snprintf
  simp

theorem broadcast_eq (K : Kernel) (roomname username message : CStr) (entries : List CStr) :
    ∀ n, broadcast K roomname username message n entries =
      (((entries.filter (is_peer username)).enumFrom n).flatMap (fun je =>
          ChatEvent.fork (K.pid je.1)
            :: writer_child K (K.pid je.1) (pipe_path roomname je.2) message
            ++ [ChatEvent.waitpid (K.pid je.1)]),
        n + (entries.filter (is_peer username)).length) := by
  induction entries with
  | nil => intro n; simp [broadcast]
  | cons e es ih =>
    intro n
    rw [broadcast]
    by_cases hp : e = ".".toList ∨ e = "..".toList ∨ e = username
    · have hf : is_peer username e = false := by
        unfold is_peer
        rcases hp with h | h | h <;> simp [h]
      rw [if_pos hp, ih n, List.filter_cons, hf]
      simp
    · have hf : is_peer username e = true := by
        simp only [not_or] at hp
        simp only [is_peer, Bool.and_eq_true, Bool.not_eq_true', beq_eq_false_iff_ne]
        exact ⟨⟨hp.1, hp.2.1⟩, hp.2.2⟩
      rw [if_neg hp, ih (n + 1), List.filter_cons, hf]
      simp only [if_true, List.enumFrom_cons, List.flatMap_cons, List.length_cons]
      refine Prod.ext rfl ?_
      show n + 1 + _ = n + (_ + 1)
      omega

theorem c_str_of_not_mem (s : CStr) (h : NUL ∉ s) : c_str s = s := by
  unfold c_str
  rw [List.takeWhile_eq_self_iff]
  intro x hx
  have : x ≠ NUL := fun e => h (e ▸ hx)
  simpa using this

theorem send_step_line (K : Kernel) (roomname username text rest : CStr) (n : Nat)
    (entries : List CStr) (h0 : NUL ∉ text) (h1 : text ≠ []) (h2 : NEWLINE ∉ text) :
    send_step K roomname username n (text ++ NEWLINE :: rest) (some entries) =
      ([ChatEvent.print ('[' :: roomname ++ "] ".toList ++ username ++ " > ".toList),
        ChatEvent.print ('[' :: roomname ++ "] ".toList
          ++ snprintf 2048 (username ++ ": ".toList ++ text.take 1023) ++ [NEWLINE]),
        ChatEvent.opendir (room_path roomname) true]
        ++ (broadcast K roomname username
              (snprintf 2048 (username ++ ": ".toList ++ text.take 1023)) n entries).1
        ++ [ChatEvent.closedir (room_path roomname)],
       some (if text.length < 1023 then rest else text.drop 1023 ++ NEWLINE :: rest,
             (broadcast K roomname username
              (snprintf 2048 (username ++ ": ".toList ++ text.take 1023)) n entries).2)) := by
  have hf : fgets 1024 (text ++ NEWLINE :: rest)
      = some (fgets_aux 1023 (text ++ NEWLINE :: rest)) := by
    cases text with
    | nil => exact absurd rfl h1
    | cons c cs => rfl
  have hc : c_str (fgets_aux 1023 (text ++ NEWLINE :: rest)).1
      = (fgets_aux 1023 (text ++ NEWLINE :: rest)).1 := by
    apply c_str_of_not_mem
    rw [fgets_aux_line 1023 text rest h2]
    by_cases hl : text.length < 1023
    · rw [if_pos hl]
      intro hm
      rcases List.mem_append.1 hm with hm | hm
      · exact h0 hm
      · rw [List.mem_singleton] at hm
        exact absurd hm (by decide)
    · rw [if_neg hl]
      intro hm
      exact h0 (List.mem_of_mem_take hm)
  have hin : (if (c_str (fgets_aux 1023 (text ++ NEWLINE :: rest)).1).getLast? = some NEWLINE
      then (c_str (fgets_aux 1023 (text ++ NEWLINE :: rest)).1).dropLast
      else c_str (fgets_aux 1023 (text ++ NEWLINE :: rest)).1) = text.take 1023 := by
    rw [hc, fgets_aux_line 1023 text rest h2]
    by_cases hl : text.length < 1023
    · rw [if_pos hl]
      simp [List.take_of_length_le (Nat.le_of_lt hl)]
    · rw [if_neg hl]
      have hne : (text.take 1023).getLast? ≠ some NEWLINE := by
        intro e
        have := List.mem_of_getLast?_eq_some e
        exact h2 (List.mem_of_mem_take this)
      simp only []
      rw [if_neg hne]
  have hne : text.take 1023 ≠ [] := by
    cases text with
    | nil => exact absurd rfl h1
    | cons c cs => simp
  have hrest : (fgets_aux 1023 (text ++ NEWLINE :: rest)).2
      = if text.length < 1023 then rest else text.drop 1023 ++ NEWLINE :: rest := by
    rw [fgets_aux_line 1023 text rest h2]
    split_ifs <;> rfl
  simp only [send_step, hf, hin, if_neg hne, hrest]

theorem room_path_length (roomname : CStr) : (room_path roomname).length ≤ 511 :=
  snprintf_length_le 512 _

theorem pipe_path_of_short (roomname name : CStr) (h : name.length ≤ 255) :
    pipe_path roomname name = room_path roomname ++ '/' :: name := by
  unfold pipe_path
  apply snprintf_of_le
  have := room_path_length roomname
  simp only [List.length_append, List.length_cons]
  omega

theorem flatMap_enumFrom_congr (f g : Nat × CStr → List ChatEvent) (l : List CStr)
    (h : ∀ e ∈ l, ∀ j, f (j, e) = g (j, e)) :
    ∀ n, (l.enumFrom n).flatMap f = (l.enumFrom n).flatMap g := by
  induction l with
  | nil => intro n; rfl
  | cons e es ih =>
    intro n
    simp only [List.enumFrom_cons, List.flatMap_cons]
    rw [h e (List.mem_cons_self e es) n,
      ih (fun x hx => h x (List.mem_cons_of_mem e hx)) (n + 1)]

theorem chat_writes_append (a b : List ChatEvent) :
    chat_writes (a ++ b) = chat_writes a ++ chat_writes b := by
  induction a with
  | nil => rfl
  | cons x xs ih => cases x <;> simp [chat_writes, ih]

/-- The calls of a round that reads a line, when the peers' pipes open and
the entry names have at most 255 characters: `m` is the message as framed in
the 2048-byte buffer from the first 1023 characters of the line. -/
theorem send_step_events (K : Kernel) (roomname u text rest : CStr) (D : List CStr)
    (n : Nat) (h0 : NUL ∉ text) (h1 : text ≠ []) (h2 : NEWLINE ∉ text)
    (h5 : ∀ e ∈ D, e.length ≤ 255)
    (h6 : ∀ e ∈ D, is_peer u e = true →
      K.open_ok (room_path roomname ++ '/' :: e) = true) :
    (send_step K roomname u n (text ++ NEWLINE :: rest) (some D)).1 =
      [ChatEvent.print ('[' :: roomname ++ "] ".toList ++ u ++ " > ".toList),
       ChatEvent.print ('[' :: roomname ++ "] ".toList
          ++ snprintf 2048 (u ++ ": ".toList ++ text.take 1023) ++ [NEWLINE]),
       ChatEvent.opendir (room_path roomname) true]
      ++ ((D.filter (is_peer u)).enumFrom n).flatMap (fun je =>
          [ChatEvent.fork (K.pid je.1),
           ChatEvent.child_open (K.pid je.1) (room_path roomname ++ '/' :: je.2) true,
           ChatEvent.child_write (K.pid je.1) (room_path roomname ++ '/' :: je.2)
             (snprintf 2048 (u ++ ": ".toList ++ text.take 1023) ++ [NEWLINE]),
           ChatEvent.child_close (K.pid je.1) (room_path roomname ++ '/' :: je.2),
           ChatEvent.child_exit (K.pid je.1),
           ChatEvent.waitpid (K.pid je.1)])
      ++ [ChatEvent.closedir (room_path roomname)] := by
  rw [send_step_line K roomname u text rest n D h0 h1 h2, broadcast_eq]
  simp only []
  congr 2
  apply flatMap_enumFrom_congr
  intro e he j
  obtain ⟨hD, hp⟩ := List.mem_filter.1 he
  have hm : snprintf 2050 (snprintf 2048 (u ++ ": ".toList ++ text.take 1023) ++ [NEWLINE])
      = snprintf 2048 (u ++ ": ".toList ++ text.take 1023) ++ [NEWLINE] := by
    apply snprintf_of_le
    have := snprintf_length_le 2048 (u ++ ": ".toList ++ text.take 1023)
    simp only [List.length_append, List.length_singleton]
    omega
  simp only [writer_child, pipe_path_of_short roomname e (h5 e hD), h6 e hD hp, if_true, hm]
  rfl

theorem chat_writes_peers (K : Kernel) (rp bytes : CStr) (l : List CStr) :
    ∀ n, chat_writes ((l.enumFrom n).flatMap (fun je =>
          [ChatEvent.fork (K.pid je.1),
           ChatEvent.child_open (K.pid je.1) (rp ++ '/' :: je.2) true,
           ChatEvent.child_write (K.pid je.1) (rp ++ '/' :: je.2) bytes,
           ChatEvent.child_close (K.pid je.1) (rp ++ '/' :: je.2),
           ChatEvent.child_exit (K.pid je.1),
           ChatEvent.waitpid (K.pid je.1)]))
      = l.map (fun e => (rp ++ '/' :: e, bytes)) := by
  induction l with
  | nil => intro n; rfl
  | cons e es ih =>
    intro n
    simp only [List.enumFrom_cons, List.flatMap_cons, chat_writes_append, ih (n + 1),
      List.map_cons]
    rfl

theorem chat_writes_send_step (K : Kernel) (roomname u text rest : CStr) (D : List CStr)
    (n : Nat) (h0 : NUL ∉ text) (h1 : text ≠ []) (h2 : NEWLINE ∉ text)
    (h5 : ∀ e ∈ D, e.length ≤ 255)
    (h6 : ∀ e ∈ D, is_peer u e = true →
      K.open_ok (room_path roomname ++ '/' :: e) = true) :
    chat_writes (send_step K roomname u n (text ++ NEWLINE :: rest) (some D)).1 =
      (D.filter (is_peer u)).map (fun e =>
        (room_path roomname ++ '/' :: e,
         snprintf 2048 (u ++ ": ".toList ++ text.take 1023) ++ [NEWLINE])) := by
  rw [send_step_events K roomname u text rest D n h0 h1 h2 h5 h6, chat_writes_append,
    chat_writes_append, chat_writes_peers]
  simp [chat_writes]

theorem snprintf_append_replicate_fit (size : Nat) (p : CStr) (k : Nat)
    (h : p.length + k ≤ size - 1) :
    snprintf size (p ++ List.replicate k 'a') = p ++ List.replicate k 'a' := by
  apply snprintf_of_le
  rw [List.length_append, List.length_replicate]
  exact h

theorem snprintf_append_replicate_cut (size : Nat) (p : CStr) (j k : Nat)
    (hs : size - 1 = p.length + j) (hj : j ≤ k) :
    snprintf size (p ++ List.replicate k 'a') = p ++ List.replicate j 'a' := by
  unfold snprintf
  rw [hs, List.take_append, List.take_replicate, Nat.min_eq_left hj]

theorem append_replicate_ne (p q : CStr) (j k : Nat) (h : j ≠ k) :
    p ++ List.replicate j 'a' ++ q ≠ p ++ List.replicate k 'a' ++ q := by
  intro e
  have := congrArg List.length e
  simp only [List.length_append, List.length_replicate] at this
  omega

theorem resolve_aux_no_slash (dir : List CStr) : ∀ (e cur : CStr), '/' ∉ e →
    resolve_aux dir cur e = resolve_step dir (cur ++ e) := by
  intro e
  induction e with
  | nil => intro cur _; simp [resolve_aux]
  | cons c cs ih =>
    intro cur h
    have hc : c ≠ '/' := fun e => h (e ▸ List.mem_cons_self c cs)
    have hcs : '/' ∉ cs := fun m => h (List.mem_cons_of_mem c m)
    rw [resolve_aux, if_neg hc, ih (cur ++ [c]) hcs]
    simp

theorem resolve_aux_append (e : CStr) (he : '/' ∉ e) : ∀ (p : CStr) (dir : List CStr)
    (cur : CStr),
    resolve_aux dir cur (p ++ '/' :: e) = resolve_step (resolve_aux dir cur p) e := by
  intro p
  induction p with
  | nil =>
    intro dir cur
    show resolve_aux dir cur ('/' :: e) = _
    simp only [resolve_aux, if_true, resolve_aux_no_slash _ e [] he, List.nil_append]
  | cons c cs ih =>
    intro dir cur
    show resolve_aux dir cur (c :: (cs ++ '/' :: e)) = _
    rw [resolve_aux, resolve_aux]
    by_cases hc : c = '/'
    · rw [if_pos hc, if_pos hc, ih]
    · rw [if_neg hc, if_neg hc, ih]

/-- The path `p/e`, with `e` free of `/`, names what one step through `e`
reaches from the directory `p`. -/
theorem resolve_entry (p e : CStr) (he : '/' ∉ e) :
    resolve (p ++ '/' :: e) = resolve_step (resolve p) e :=
  resolve_aux_append e he p [] []

theorem resolve_step_name (dir : List CStr) (e : CStr) (h0 : e ≠ [])
    (h1 : e ≠ ".".toList) (h2 : e ≠ "..".toList) : resolve_step dir e = dir ++ [e] := by
  unfold resolve_step
  rw [if_neg (fun h => h.elim h0 h1), if_neg h2]

theorem resolve_step_ne (dir : List CStr) (e v : CStr) (h0 : e ≠ [])
    (h1 : e ≠ ".".toList) (h2 : e ≠ "..".toList) (hne : e ≠ v) :
    resolve_step dir e ≠ resolve_step dir v := by
  rw [resolve_step_name dir e h0 h1 h2]
  unfold resolve_step
  split_ifs
  · intro e1
    have := congrArg List.length e1
    simp at this
  · intro e1
    have := congrArg List.length e1
    simp at this
    omega
  · intro e1
    have := List.append_cancel_left e1
    simp at this
    exact hne this

theorem pipe_path_eq (roomname name : CStr) :
    pipe_path roomname name
      = room_path roomname ++ '/' :: name.take (1022 - (room_path roomname).length) := by
  have hl := room_path_length roomname
  unfold pipe_path snprintf
  rw [List.take_append_eq_append_take, List.take_of_length_le (by omega)]
  obtain ⟨m, hm⟩ : ∃ m, 1024 - 1 - (room_path roomname).length = m + 1 :=
    ⟨1022 - (room_path roomname).length, by omega⟩
  have hm2 : 1022 - (room_path roomname).length = m := by omega
  rw [hm, List.take_succ_cons, hm2]

/-- C11 (counterexample): a line of 1024 characters does not fit the
1024-byte `input` buffer, so the round that reads it writes `al: ` and only
its first 1023 characters to the peer; and with a 1023-character name the
framed message of a 1023-character line does not fit the 2048-byte `message`
buffer, so its last character is not written. A line that begins with a NUL
byte is not empty, yet `strlen` gives 0 and nothing is sent. And for the
name `./al` the entry `al` is not skipped: the message is written to
`/tmp/chatroom-r/al`, the very pipe `user_pipe` names. -/
theorem C11_counterexample :
    chat_writes (send_step std_kernel "r".toList "al".toList 1
        (List.replicate 1024 'a' ++ NEWLINE :: []) (some ["bob".toList])).1
      = [("/tmp/chatroom-r/bob".toList,
          "al".toList ++ ": ".toList ++ List.replicate 1023 'a' ++ [NEWLINE])] ∧
    "al".toList ++ ": ".toList ++ List.replicate 1023 'a' ++ [NEWLINE]
      ≠ "al".toList ++ ": ".toList ++ List.replicate 1024 'a' ++ [NEWLINE] ∧
    chat_writes (send_step std_kernel "r".toList (List.replicate 1023 'u') 1
        (List.replicate 1023 'a' ++ NEWLINE :: []) (some ["bob".toList])).1
      = [("/tmp/chatroom-r/bob".toList,
          List.replicate 1023 'u' ++ ": ".toList ++ List.replicate 1022 'a' ++ [NEWLINE])] ∧
    List.replicate 1023 'u' ++ ": ".toList ++ List.replicate 1022 'a' ++ [NEWLINE]
      ≠ List.replicate 1023 'u' ++ ": ".toList ++ List.replicate 1023 'a' ++ [NEWLINE] ∧
    send_step std_kernel "r".toList "al".toList 1
        (NUL :: "hi".toList ++ [NEWLINE]) (some ["bob".toList])
      = ([ChatEvent.print "[r] al > ".toList], some ([], 1)) ∧
    chat_writes (send_step std_kernel "r".toList "./al".toList 1
        ("hi".toList ++ [NEWLINE]) (some ["al".toList, "bob".toList])).1
      = [("/tmp/chatroom-r/al".toList, "./al: hi".toList ++ [NEWLINE]),
         ("/tmp/chatroom-r/bob".toList, "./al: hi".toList ++ [NEWLINE])] ∧
    pipe_path "r".toList "./al".toList = "/tmp/chatroom-r/./al".toList ∧
    resolve "/tmp/chatroom-r/al".toList = resolve (pipe_path "r".toList "./al".toList) := by
  have hnl : ∀ k, NEWLINE ∉ List.replicate k 'a' := by
    intro k hk
    have := List.eq_of_mem_replicate hk
    exact absurd this (by decide)
  have hne : ∀ k, 0 < k → List.replicate k 'a' ≠ [] := by
    intro k hk e
    have := congrArg List.length e
    rw [List.length_replicate, List.length_nil] at this
    omega
  have hlen : ∀ e ∈ ["bob".toList], e.length ≤ 255 := by
    intro e he
    rw [List.mem_singleton] at he
    subst he
    decide
  have hrp : room_path "r".toList ++ '/' :: "bob".toList = "/tmp/chatroom-r/bob".toList := by
    decide
  have hmin : min 1023 1024 = 1023 := by decide
  have hmin2 : min 1023 1023 = 1023 := by decide
  have hnul : ∀ k, NUL ∉ List.replicate k 'a' := by
    intro k hk
    have := List.eq_of_mem_replicate hk
    exact absurd this (by decide)
  refine ⟨?_, append_replicate_ne _ _ 1023 1024 (by decide), ?_,
    append_replicate_ne _ _ 1022 1023 (by decide), by decide, by decide, by decide,
    by decide⟩
  · rw [chat_writes_send_step std_kernel _ _ _ _ _ _ (hnul 1024) (hne 1024 (by decide))
      (hnl 1024) hlen
      (fun _ _ _ => rfl)]
    have hf : List.filter (is_peer "al".toList) ["bob".toList] = ["bob".toList] := by decide
    rw [hf, List.take_replicate, hmin,
      snprintf_append_replicate_fit 2048 _ 1023 (by decide), List.map_singleton, hrp]
  · rw [chat_writes_send_step std_kernel _ _ _ _ _ _ (hnul 1023) (hne 1023 (by decide))
      (hnl 1023) hlen
      (fun _ _ _ => rfl)]
    have hp : is_peer (List.replicate 1023 'u') "bob".toList = true := by
      simp only [is_peer, Bool.and_eq_true, Bool.not_eq_true', beq_eq_false_iff_ne]
      refine ⟨⟨by decide, by decide⟩, ?_⟩
      intro e
      have := congrArg List.length e
      rw [List.length_replicate] at this
      exact absurd this (by decide)
    have hf : List.filter (is_peer (List.replicate 1023 'u')) ["bob".toList]
        = ["bob".toList] := by
      rw [List.filter_cons, hp]
      rfl
    rw [hf, List.take_replicate, hmin2,
      snprintf_append_replicate_cut 2048 _ 1022 1023
        (by rw [List.length_append, List.length_replicate]; rfl) (by decide),
      List.map_singleton, hrp]

/-- C11 (amended): for a participant name `u` without `/`, a non-empty line
`text` of at most 1023 characters that holds no NUL byte and whose framed
form `u: text` has at most 2047 characters, a listing `D` of entry names as
`readdir` gives them (non-empty, without `/`, at most 255 characters), and
every peer pipe opening: the round prints the prompt and the echo, opens the
directory, and for each entry of `D` other than `.`, `..` and `u`, in
listing order, forks a helper that opens the entry's pipe, writes exactly
`u: text` and a line feed once, closes and exits, the parent waiting for it
before the next fork. Each path written to names the entry of that name in
the room directory, which is not the entry the path of the pipe of `u`
names. For an empty line the round only prints the prompt. -/
theorem C11_send_step (K : Kernel) (roomname u text rest : CStr) (D : List CStr) (n : Nat)
    (h0 : NUL ∉ text) (h1 : text ≠ []) (h2 : NEWLINE ∉ text) (h3 : text.length ≤ 1023)
    (h4 : u.length + 2 + text.length ≤ 2047)
    (h5 : ∀ e ∈ D, e ≠ [] ∧ '/' ∉ e ∧ e.length ≤ 255)
    (h6 : ∀ e ∈ D, is_peer u e = true →
      K.open_ok (room_path roomname ++ '/' :: e) = true)
    (h7 : '/' ∉ u) :
    (send_step K roomname u n (text ++ NEWLINE :: rest) (some D)).1 =
      [ChatEvent.print ('[' :: roomname ++ "] ".toList ++ u ++ " > ".toList),
       ChatEvent.print ('[' :: roomname ++ "] ".toList
          ++ (u ++ ": ".toList ++ text) ++ [NEWLINE]),
       ChatEvent.opendir (room_path roomname) true]
      ++ ((D.filter (is_peer u)).enumFrom n).flatMap (fun je =>
          [ChatEvent.fork (K.pid je.1),
           ChatEvent.child_open (K.pid je.1) (room_path roomname ++ '/' :: je.2) true,
           ChatEvent.child_write (K.pid je.1) (room_path roomname ++ '/' :: je.2)
             (u ++ ": ".toList ++ text ++ [NEWLINE]),
           ChatEvent.child_close (K.pid je.1) (room_path roomname ++ '/' :: je.2),
           ChatEvent.child_exit (K.pid je.1),
           ChatEvent.waitpid (K.pid je.1)])
      ++ [ChatEvent.closedir (room_path roomname)] ∧
    chat_writes (send_step K roomname u n (text ++ NEWLINE :: rest) (some D)).1 =
      (D.filter (is_peer u)).map (fun e =>
        (room_path roomname ++ '/' :: e, u ++ ": ".toList ++ text ++ [NEWLINE])) ∧
    (∀ e ∈ D.filter (is_peer u),
      e ≠ u ∧
      resolve (room_path roomname ++ '/' :: e) = resolve (room_path roomname) ++ [e] ∧
      resolve (room_path roomname ++ '/' :: e) ≠ resolve (pipe_path roomname u)) ∧
    (∀ listing : Option (List CStr),
      send_step K roomname u n (NEWLINE :: rest) listing =
        ([ChatEvent.print ('[' :: roomname ++ "] ".toList ++ u ++ " > ".toList)],
         some (rest, n))) := by
  have hm : snprintf 2048 (u ++ ": ".toList ++ text.take 1023) = u ++ ": ".toList ++ text := by
    rw [List.take_of_length_le h3]
    apply snprintf_of_le
    have h2len : ": ".toList.length = 2 := rfl
    rw [List.length_append, List.length_append, h2len]
    omega
  have h5l : ∀ e ∈ D, e.length ≤ 255 := fun e he => (h5 e he).2.2
  refine ⟨?_, ?_, ?_, ?_⟩
  · rw [send_step_events K roomname u text rest D n h0 h1 h2 h5l h6, hm]
  · rw [chat_writes_send_step K roomname u text rest D n h0 h1 h2 h5l h6, hm]
  · intro e he
    obtain ⟨hD, hp⟩ := List.mem_filter.1 he
    obtain ⟨e0, e1, e2⟩ := h5 e hD
    simp only [is_peer, Bool.and_eq_true, Bool.not_eq_true', beq_eq_false_iff_ne] at hp
    obtain ⟨⟨p1, p2⟩, p3⟩ := hp
    refine ⟨p3, ?_, ?_⟩
    · rw [resolve_entry _ e e1, resolve_step_name _ e e0 p1 p2]
    · have hl := room_path_length roomname
      have hv : '/' ∉ u.take (1022 - (room_path roomname).length) :=
        fun m => h7 (List.mem_of_mem_take m)
      rw [pipe_path_eq, resolve_entry _ e e1, resolve_entry _ _ hv]
      apply resolve_step_ne _ _ _ e0 p1 p2
      intro heq
      by_cases hu : u.length ≤ 1022 - (room_path roomname).length
      · rw [List.take_of_length_le hu] at heq
        exact p3 heq
      · have h9 := congrArg List.length heq
        rw [List.length_take] at h9
        omega
  · intro listing
    rfl

theorem C11_send_step_witness :
    (send_step std_kernel "r".toList "al".toList 1 ("hi".toList ++ NEWLINE :: []) (some [".".toList, "..".toList, "al".toList, "bob".toList, "cy".toList])).1 =
      [ChatEvent.print ('[' :: "r".toList ++ "] ".toList ++ "al".toList ++ " > ".toList),
       ChatEvent.print ('[' :: "r".toList ++ "] ".toList
          ++ ("al".toList ++ ": ".toList ++ "hi".toList) ++ [NEWLINE]),
       ChatEvent.opendir (room_path "r".toList) true]
      ++ (([".".toList, "..".toList, "al".toList, "bob".toList, "cy".toList].filter (is_peer "al".toList)).enumFrom 1).flatMap (fun je =>
          [ChatEvent.fork (std_kernel.pid je.1),
           ChatEvent.child_open (std_kernel.pid je.1) (room_path "r".toList ++ '/' :: je.2) true,
           ChatEvent.child_write (std_kernel.pid je.1) (room_path "r".toList ++ '/' :: je.2)
             ("al".toList ++ ": ".toList ++ "hi".toList ++ [NEWLINE]),
           ChatEvent.child_close (std_kernel.pid je.1) (room_path "r".toList ++ '/' :: je.2),
           ChatEvent.child_exit (std_kernel.pid je.1),
           ChatEvent.waitpid (std_kernel.pid je.1)])
      ++ [ChatEvent.closedir (room_path "r".toList)] ∧
    chat_writes (send_step std_kernel "r".toList "al".toList 1 ("hi".toList ++ NEWLINE :: []) (some [".".toList, "..".toList, "al".toList, "bob".toList, "cy".toList])).1 =
      ([".".toList, "..".toList, "al".toList, "bob".toList, "cy".toList].filter (is_peer "al".toList)).map (fun e =>
        (room_path "r".toList ++ '/' :: e, "al".toList ++ ": ".toList ++ "hi".toList ++ [NEWLINE])) ∧
    (∀ e ∈ [".".toList, "..".toList, "al".toList, "bob".toList, "cy".toList].filter (is_peer "al".toList),
      e ≠ "al".toList ∧
      resolve (room_path "r".toList ++ '/' :: e) = resolve (room_path "r".toList) ++ [e] ∧
      resolve (room_path "r".toList ++ '/' :: e) ≠ resolve (pipe_path "r".toList "al".toList)) ∧
    (∀ listing : Option (List CStr),
      send_step std_kernel "r".toList "al".toList 1 (NEWLINE :: []) listing =
        ([ChatEvent.print ('[' :: "r".toList ++ "] ".toList ++ "al".toList ++ " > ".toList)],
         some ([], 1))) :=
  C11_send_step std_kernel "r".toList "al".toList "hi".toList []
    [".".toList, "..".toList, "al".toList, "bob".toList, "cy".toList] 1
    (by decide) (by decide) (by decide) (by decide) (by decide) (by decide)
    (fun _ _ _ => rfl) (by decide)

end Shellish
